import Mathlib

/-
Verification of the winged-edge data structure construction in
pysal/network/wed.py, as a shallow embedding over exact rational
coordinates.  Python dictionaries are modelled as association lists with
replace-on-insert semantics (lookup finds the unique binding); lists are
Lean lists; code that can raise an exception is modelled in Option, with
`none` for a raised exception; unbounded while-loops take explicit fuel.
-/

namespace Wed

/-! ### Exact rational arithmetic

Mathlib's `ℚ` operations do not reduce inside the kernel, so the embedding
uses its own normalized fraction type: every operation renormalizes with
`Nat.gcd`, making structural equality coincide with value equality and
keeping all arithmetic kernel-computable.  It models the real-valued
(Python float) coordinate arithmetic of the source exactly on rational
inputs. -/

structure Q where
  num : Int
  den : Nat
  deriving DecidableEq

/-- Build the normalized fraction n / d (d nonzero at every use site). -/
def Q.mk2 (n d : Int) : Q :=
  let s : Int := if d < 0 then -1 else 1
  let n2 := s * n
  let d2 := (s * d).toNat
  let g := Nat.gcd n2.natAbs d2
  if g = 0 then ⟨0, 1⟩ else ⟨n2 / (g : Int), d2 / g⟩

instance : Add Q :=
  ⟨fun a b => Q.mk2 (a.num * (b.den : Int) + b.num * (a.den : Int)) ((a.den : Int) * (b.den : Int))⟩

instance : Sub Q :=
  ⟨fun a b => Q.mk2 (a.num * (b.den : Int) - b.num * (a.den : Int)) ((a.den : Int) * (b.den : Int))⟩

instance : Mul Q := ⟨fun a b => Q.mk2 (a.num * b.num) ((a.den : Int) * (b.den : Int))⟩

instance : Neg Q := ⟨fun a => ⟨-a.num, a.den⟩⟩

instance (n : Nat) : OfNat Q n := ⟨⟨Int.ofNat n, 1⟩⟩

instance : LT Q := ⟨fun a b => a.num * (b.den : Int) < b.num * (a.den : Int)⟩

instance : LE Q := ⟨fun a b => a.num * (b.den : Int) ≤ b.num * (a.den : Int)⟩

instance (a b : Q) : Decidable (a < b) :=
  inferInstanceAs (Decidable (a.num * (b.den : Int) < b.num * (a.den : Int)))

instance (a b : Q) : Decidable (a ≤ b) :=
  inferInstanceAs (Decidable (a.num * (b.den : Int) ≤ b.num * (a.den : Int)))

/-- Rational literal n / d. -/
def qq (n d : Int) : Q := Q.mk2 n d

abbrev Node := Nat
abbrev Coord := Q × Q
abbrev Edge := Node × Node

/-- The reversed pair of a directed half-edge. -/
def twin (e : Edge) : Edge := (e.2, e.1)

theorem twin_twin (e : Edge) : twin (twin e) = e := rfl

/-! ### Association-list model of Python dicts -/

def mfind {α β : Type} [DecidableEq α] : List (α × β) → α → Option β
  | [], _ => none
  | p :: t, k => if p.1 = k then some p.2 else mfind t k

def minsert {α β : Type} [DecidableEq α] : List (α × β) → α → β → List (α × β)
  | [], k, v => [(k, v)]
  | p :: t, k, v => if p.1 = k then (k, v) :: t else p :: minsert t k v

/-- `dict.update(other)` : insert every binding of `other` in order. -/
def mupdate {α β : Type} [DecidableEq α] (m other : List (α × β)) : List (α × β) :=
  other.foldl (fun acc p => minsert acc p.1 p.2) m

/-- `del d[k]` assuming the key is present (the caller checks). -/
def mdel {α β : Type} [DecidableEq α] : List (α × β) → α → List (α × β)
  | [], _ => []
  | p :: t, k => if p.1 = k then t else p :: mdel t k

def mkeys {α β : Type} : List (α × β) → List α := List.map Prod.fst

theorem mfind_minsert_self {α β : Type} [DecidableEq α] (m : List (α × β)) (k : α) (v : β) :
    mfind (minsert m k v) k = some v := by
  induction m with
  | nil => simp [minsert, mfind]
  | cons p t ih =>
      by_cases h : p.1 = k
      · simp [minsert, h, mfind]
      · simp [minsert, h, mfind, ih]

theorem mfind_minsert_ne {α β : Type} [DecidableEq α] (m : List (α × β)) (k k2 : α) (v : β)
    (h : k2 ≠ k) : mfind (minsert m k v) k2 = mfind m k2 := by
  have hk2 : ¬ (k = k2) := fun hh => h hh.symm
  induction m with
  | nil => simp only [minsert, mfind, if_neg hk2]
  | cons p t ih =>
      by_cases hp : p.1 = k
      · have hp2 : ¬ (p.1 = k2) := fun hh => h (hh.symm.trans hp)
        simp only [minsert, if_pos hp, mfind, if_neg hk2, if_neg hp2]
      · simp only [minsert, if_neg hp, mfind, ih]

theorem mem_mkeys_minsert {α β : Type} [DecidableEq α] (m : List (α × β)) (k a : α) (v : β) :
    a ∈ mkeys (minsert m k v) ↔ a ∈ mkeys m ∨ a = k := by
  induction m with
  | nil => simp [minsert, mkeys]
  | cons p t ih =>
      by_cases hp : p.1 = k
      · subst hp
        simp only [minsert, if_pos rfl, mkeys, List.map_cons, List.mem_cons, eq_self_iff_true,
          if_true]
        tauto
      · simp only [minsert, if_neg hp, mkeys, List.map_cons, List.mem_cons]
        simp only [mkeys] at ih
        rw [ih]
        tauto

theorem mkeys_minsert_nodup {α β : Type} [DecidableEq α] (m : List (α × β)) (k : α) (v : β)
    (h : (mkeys m).Nodup) : (mkeys (minsert m k v)).Nodup := by
  induction m with
  | nil => simp [minsert, mkeys]
  | cons p t ih =>
      by_cases hp : p.1 = k
      · subst hp
        simpa [minsert, mkeys] using h
      · simp only [mkeys, List.map_cons, List.nodup_cons] at h
        have ht := ih h.2
        simp only [minsert, if_neg hp, mkeys, List.map_cons, List.nodup_cons]
        refine ⟨?_, ht⟩
        intro hmem
        have hmem2 : p.1 ∈ mkeys (minsert t k v) := by simpa [mkeys] using hmem
        rcases (mem_mkeys_minsert t k p.1 v).mp hmem2 with h1 | h1
        · exact h.1 (by simpa [mkeys] using h1)
        · exact hp h1

/-! ### check_edges : the Graph Normalizer (wed.py lines 58-88) -/

/-- `set.add` on the list model of a Python set. -/
def seenAdd (s : List Edge) (e : Edge) : List Edge := if e ∈ s then s else s ++ [e]

/-- The scan of `check_edges`: returns the final `(seen, seen_twice)` sets. -/
def checkLoop : List Edge → List Edge → List Edge → List Edge × List Edge
  | [], seen, st => (seen, st)
  | e :: rest, seen, st =>
      checkLoop rest (seenAdd (seenAdd seen e) (twin e))
        (if e ∈ seen then seenAdd st e else st)

/-- wed.py `WED.check_edges`.  `len(edges) / 2` is Python-2 integer
division, hence `Nat` division here. -/
def check_edges (edges : List Edge) : List Edge :=
  let st := (checkLoop edges [] []).2
  if st.length ≠ edges.length / 2 then
    (edges.map (fun e => [e, twin e])).flatten
  else edges

theorem mem_seenAdd {s : List Edge} {e a : Edge} : a ∈ seenAdd s e ↔ a ∈ s ∨ a = e := by
  by_cases h : e ∈ s
  · simp only [seenAdd, if_pos h]
    constructor
    · exact Or.inl
    · rintro (h1 | rfl)
      · exact h1
      · exact h
  · simp [seenAdd, if_neg h]

theorem checkLoop_st_nil (edges : List Edge) : ∀ seen : List Edge,
    (∀ e ∈ edges, e ∉ seen) → edges.Nodup →
    (∀ e ∈ edges, ∀ f ∈ edges, twin e ≠ f) →
    (checkLoop edges seen []).2 = [] := by
  induction edges with
  | nil => intro seen _ _ _; rfl
  | cons e rest ih =>
      intro seen hseen hnd hrev
      have he : e ∉ seen := hseen e (by simp)
      simp only [checkLoop, if_neg he]
      apply ih
      · intro f hf
        rw [mem_seenAdd, mem_seenAdd]
        rintro ((h1 | rfl) | h1)
        · exact hseen f (by simp [hf]) h1
        · exact (List.nodup_cons.mp hnd).1 hf
        · exact hrev e (by simp) f (by simp [hf]) h1.symm
      · exact (List.nodup_cons.mp hnd).2
      · intro a ha b hb
        exact hrev a (by simp [ha]) b (by simp [hb])

theorem count_join_dbl (l : List Edge) (a : Edge) :
    ((l.map (fun e => [e, twin e])).flatten).count a = l.count a + l.count (twin a) := by
  induction l with
  | nil => simp
  | cons e t ih =>
      have hiff : (twin e = a) ↔ (e = twin a) := by
        constructor
        · rintro rfl
          exact (twin_twin e).symm
        · rintro rfl
          exact twin_twin a
      have hsw : (if twin e = a then 1 else 0) = (if e = twin a then 1 else 0) := by
        by_cases hc : twin e = a
        · rw [if_pos hc, if_pos (hiff.mp hc)]
        · rw [if_neg hc, if_neg (fun hh => hc (hiff.mpr hh))]
      simp only [List.map_cons, List.flatten_cons, List.count_append, ih, List.count_cons,
        List.count_nil, beq_iff_eq]
      rw [hsw]
      omega

theorem mfind_minsert_cases {α β : Type} [DecidableEq α] {m : List (α × β)} {k e : α}
    {v w : β} (h : mfind (minsert m k v) e = some w) :
    (e = k ∧ w = v) ∨ mfind m e = some w := by
  by_cases he : e = k
  · subst he
    rw [mfind_minsert_self] at h
    exact Or.inl ⟨rfl, (Option.some_inj.mp h).symm⟩
  · rw [mfind_minsert_ne m k e v he] at h
    exact Or.inr h

/-- start_node / end_node assignment of `extract_wed` (wed.py lines 290-295):
self-loop pairs are skipped. -/
def buildStartEnd (edges : List Edge) : List (Edge × Node) × List (Edge × Node) :=
  edges.foldl
    (fun p edge =>
      if edge.1 ≠ edge.2 then (minsert p.1 edge edge.1, minsert p.2 edge edge.2) else p)
    ([], [])

theorem buildStartEnd_fold_no_selfloop (edges : List Edge) :
    ∀ acc : List (Edge × Node) × List (Edge × Node),
    (∀ e v, mfind acc.1 e = some v → e.1 ≠ e.2) →
    (∀ e v, mfind (edges.foldl
      (fun p edge =>
        if edge.1 ≠ edge.2 then (minsert p.1 edge edge.1, minsert p.2 edge edge.2) else p)
      acc).1 e = some v → e.1 ≠ e.2) := by
  induction edges with
  | nil => intro acc hacc; exact hacc
  | cons a rest ih =>
      intro acc hacc
      simp only [List.foldl_cons]
      apply ih
      by_cases ha : a.1 ≠ a.2
      · intro e v hfind
        simp only [if_pos ha] at hfind
        rcases mfind_minsert_cases hfind with ⟨rfl, _⟩ | h2
        · exact ha
        · exact hacc e v h2
      · intro e v hfind
        simp only [if_neg ha] at hfind
        exact hacc e v hfind

/-- C4 (amended part): the start_node map built during construction never
holds a key with equal endpoints. -/
theorem start_node_no_selfloop (edges : List Edge) (e : Edge) (v : Node)
    (h : mfind (buildStartEnd edges).1 e = some v) : e.1 ≠ e.2 :=
  buildStartEnd_fold_no_selfloop edges ([], []) (by intro e v h; cases h) e v h

/-- C4 (counterexample): check_edges does not discard self-loops; the
normalized edge list for an input containing (0,0) still contains (0,0)
(here even twice, since the doubling branch duplicates it). -/
theorem check_edges_keeps_selfloop :
    (0, 0) ∈ check_edges [((0 : Node), (0 : Node)), (0, 1)] ∧
    (check_edges [((0 : Node), (0 : Node)), (0, 1)]).count (0, 0) = 2 := by
  constructor
  · decide
  · decide

/-- C4 (witness for the amended theorem): at the concrete edge list
[(0,1),(1,0)] the start_node map holds (0,1), whose endpoints differ. -/
theorem start_node_no_selfloop_witness :
    mfind (buildStartEnd [((0 : Node), 1), (1, 0)]).1 (0, 1) = some 0 ∧ (0 : Node) ≠ 1 :=
  ⟨by decide, start_node_no_selfloop [((0 : Node), 1), (1, 0)] (0, 1) 0 (by decide)⟩

/-- C3 (counterexample): a single undirected edge given in one direction is
passed through unchanged, so its reverse never appears: the claimed
normalization property fails on input [(0,1)]. -/
theorem check_edges_single_not_doubled :
    check_edges [((0 : Node), (1 : Node))] = [(0, 1)] ∧
    (1, 0) ∉ check_edges [((0 : Node), (1 : Node))] := by
  constructor
  · decide
  · decide

theorem count_one_of_nodup_mem {l : List Edge} {a : Edge} (hnd : l.Nodup) (ha : a ∈ l) :
    l.count a = 1 := by
  induction l with
  | nil => cases ha
  | cons b t ih =>
      rcases List.mem_cons.mp ha with rfl | h
      · rw [List.count_cons_self]
        have h0 : t.count a = 0 :=
          List.count_eq_zero.mpr (List.nodup_cons.mp hnd).1
        omega
      · have hne2 : a ≠ b := by
          rintro rfl
          exact (List.nodup_cons.mp hnd).1 h
        rw [List.count_cons_of_ne hne2]
        exact ih (List.nodup_cons.mp hnd).2 h

/-- C3 (amended): when the input holds at least two edges, no duplicate pair
and no pair together with its reverse (hence no self-loop), check_edges
doubles the list and every input pair then appears exactly once in each
direction. -/
theorem check_edges_doubles (edges : List Edge)
    (hlen : 2 ≤ edges.length)
    (hnd : edges.Nodup)
    (hrev : ∀ e ∈ edges, twin e ∉ edges) :
    check_edges edges = (edges.map (fun e => [e, twin e])).flatten ∧
    ∀ e ∈ edges,
      (check_edges edges).count e = 1 ∧ (check_edges edges).count (twin e) = 1 := by
  have hst : (checkLoop edges [] []).2 = [] := by
    apply checkLoop_st_nil edges [] (by intro e _ h; cases h) hnd
    intro e he f hf hef
    exact hrev e he (hef ▸ hf)
  have hcond : ([] : List Edge).length ≠ edges.length / 2 := by
    simp only [List.length_nil]
    omega
  have hval : check_edges edges = (edges.map (fun e => [e, twin e])).flatten := by
    unfold check_edges
    rw [hst, if_pos hcond]
  refine ⟨hval, ?_⟩
  intro e he
  have h1 : edges.count e = 1 := count_one_of_nodup_mem hnd he
  have h2 : edges.count (twin e) = 0 := List.count_eq_zero.mpr (hrev e he)
  constructor
  · rw [hval, count_join_dbl, h1, h2]
  · rw [hval, count_join_dbl, h2, twin_twin, h1]

/-- C3 (witness): the amended doubling theorem applied to the two-edge input
[(0,1),(2,3)]. -/
theorem check_edges_doubles_witness :
    check_edges [((0 : Node), 1), (2, 3)] = [(0, 1), (1, 0), (2, 3), (3, 2)] ∧
    (check_edges [((0 : Node), 1), (2, 3)]).count (1, 0) = 1 := by
  have h := check_edges_doubles [((0 : Node), 1), (2, 3)] (by decide) (by decide)
    (by decide)
  refine ⟨h.1.trans (by decide), ?_⟩
  have h2 := (h.2 (0, 1) (by simp)).2
  exact h2

/-! ### filament_pointers (wed.py lines 633-714) -/

structure FPMaps where
  ecc : List (Edge × Edge)
  ec : List (Edge × Edge)
  scc : List (Edge × Edge)
  sc : List (Edge × Edge)
  node_edge : List (Node × Edge)
  deriving DecidableEq

/-- `if n not in node_edge: node_edge[n] = e` -/
def neSetDefault (ne : List (Node × Edge)) (n : Node) (e : Edge) : List (Node × Edge) :=
  if (mfind ne n).isNone then minsert ne n e else ne

/-- One iteration of the `for i in range(nv - 2)` loop of filament_pointers. -/
def fpStep (fl : List Node) (st : FPMaps) (i : ℕ) : FPMaps :=
  let s0 := fl.getD i 0
  let e0 := fl.getD (i + 1) 0
  let s1 := fl.getD (i + 2) 0
  { ecc := minsert (minsert st.ecc (s0, e0) (e0, s1)) (s1, e0) (e0, s0),
    ec := minsert st.ec (s0, e0) (e0, s1),
    scc := minsert st.scc (e0, s1) (s0, e0),
    sc := minsert st.sc (e0, s1) (s0, e0),
    node_edge :=
      neSetDefault (neSetDefault (neSetDefault st.node_edge s0 (s0, e0)) e0 (s0, e0))
        s1 (e0, s1) }

/-- wed.py `WED.filament_pointers`.  Python raises IndexError for a filament
of fewer than two nodes (negative indexing), hence `none` there. -/
def filament_pointers (fl : List Node) (node_edge : List (Node × Edge)) : Option FPMaps :=
  if fl.length < 2 then none else
  let nv := fl.length
  let st0 : FPMaps := ⟨[], [], [], [], node_edge⟩
  let st := (List.range (nv - 2)).foldl (fpStep fl) st0
  let a := fl.getD (nv - 2) 0
  let b := fl.getD (nv - 1) 0
  let f0 := fl.getD 0 0
  let f1 := fl.getD 1 0
  let st1 : FPMaps :=
    { ecc := minsert (minsert st.ecc (a, b) (b, a)) (f1, f0) (f0, f1),
      ec := minsert (minsert st.ec (a, b) (a, b)) (f1, f0) (f1, f0),
      scc := st.scc,
      sc := minsert st.sc (f0, f1) (f0, f1),
      node_edge := st.node_edge }
  if nv = 2 then
    some { ecc := minsert st1.ecc (f0, f1) (f1, f0),
           ec := minsert st1.ec (f0, f1) (f0, f1),
           scc := minsert st1.scc (f0, f1) (f0, f1),
           sc := minsert st1.sc (f0, f1) (f0, f1),
           node_edge :=
             neSetDefault (neSetDefault st1.node_edge f0 (f0, f1)) f1 (f0, f1) }
  else some st1

theorem nodup_getD_ne {l : List Node} (h : l.Nodup) {i j : ℕ} (hi : i < l.length)
    (hj : j < l.length) (hij : i ≠ j) : l.getD i 0 ≠ l.getD j 0 := by
  rw [List.getD_eq_getElem l 0 hi, List.getD_eq_getElem l 0 hj]
  intro hh
  exact hij (List.Nodup.getElem_inj_iff h |>.mp hh)

theorem pair_ne_fst {a b c d : Node} (h : a ≠ c) : (a, b) ≠ (c, d) :=
  fun hh => h (congrArg Prod.fst hh)

theorem pair_ne_snd {a b c d : Node} (h : b ≠ d) : (a, b) ≠ (c, d) :=
  fun hh => h (congrArg Prod.snd hh)

theorem fpFold_scc_find (fl : List Node) (key : Edge) :
    ∀ (l : List ℕ) (st : FPMaps),
    (∀ i ∈ l, (fl.getD (i + 1) 0, fl.getD (i + 2) 0) ≠ key) →
    mfind (l.foldl (fpStep fl) st).scc key = mfind st.scc key := by
  intro l
  induction l with
  | nil => intro st _; rfl
  | cons i rest ih =>
      intro st hkeys
      simp only [List.foldl_cons]
      rw [ih _ (fun j hj => hkeys j (by simp [hj]))]
      show mfind (minsert st.scc (fl.getD (i + 1) 0, fl.getD (i + 2) 0) _) key = _
      rw [mfind_minsert_ne _ _ _ _ (fun hh => hkeys i (by simp) hh.symm)]

/-- C9 (amended): for a duplicate-free filament of at least two nodes,
filament_pointers gives the last edge (and the reversed first edge) an
`ec` pointer to the edge itself but an `ecc` pointer to its twin; `sc` of
the first edge points to itself, and `scc` of the first edge is only
assigned for two-node filaments. -/
theorem filament_pointers_end_edges (fl : List Node) (ne : List (Node × Edge)) (st : FPMaps)
    (hnd : fl.Nodup) (hst : filament_pointers fl ne = some st) :
    mfind st.ec (fl.getD (fl.length - 2) 0, fl.getD (fl.length - 1) 0)
      = some (fl.getD (fl.length - 2) 0, fl.getD (fl.length - 1) 0) ∧
    mfind st.ecc (fl.getD (fl.length - 2) 0, fl.getD (fl.length - 1) 0)
      = some (fl.getD (fl.length - 1) 0, fl.getD (fl.length - 2) 0) ∧
    mfind st.ec (fl.getD 1 0, fl.getD 0 0) = some (fl.getD 1 0, fl.getD 0 0) ∧
    mfind st.ecc (fl.getD 1 0, fl.getD 0 0) = some (fl.getD 0 0, fl.getD 1 0) ∧
    mfind st.sc (fl.getD 0 0, fl.getD 1 0) = some (fl.getD 0 0, fl.getD 1 0) ∧
    (2 < fl.length → mfind st.scc (fl.getD 0 0, fl.getD 1 0) = none) := by
  have hlen : ¬ fl.length < 2 := by
    intro hlt
    unfold filament_pointers at hst
    rw [if_pos hlt] at hst
    cases hst
  unfold filament_pointers at hst
  rw [if_neg hlen] at hst
  simp only [] at hst
  have h01 : fl.getD 0 0 ≠ fl.getD 1 0 :=
    nodup_getD_ne hnd (by omega) (by omega) (by omega)
  by_cases h2 : fl.length = 2
  · rw [if_pos h2] at hst
    injection hst with hst
    subst hst
    have ha : fl.length - 2 = 0 := by omega
    have hb : fl.length - 1 = 1 := by omega
    rw [ha, hb]
    refine ⟨?_, ?_, ?_, ?_, ?_, ?_⟩
    · dsimp only [List.range_zero, List.foldl_nil]
      rw [mfind_minsert_self]
    · dsimp only [List.range_zero, List.foldl_nil]
      rw [mfind_minsert_self]
    · dsimp only [List.range_zero, List.foldl_nil]
      rw [mfind_minsert_ne _ _ _ _ (pair_ne_fst (Ne.symm h01)), mfind_minsert_self]
    · dsimp only [List.range_zero, List.foldl_nil]
      rw [mfind_minsert_ne _ _ _ _ (pair_ne_fst (Ne.symm h01)), mfind_minsert_self]
    · dsimp only [List.range_zero, List.foldl_nil]
      rw [mfind_minsert_self]
    · intro hbad
      omega
  · rw [if_neg h2] at hst
    injection hst with hst
    subst hst
    have h3 : 3 ≤ fl.length := by omega
    have hbf0 : fl.getD (fl.length - 1) 0 ≠ fl.getD 0 0 :=
      nodup_getD_ne hnd (by omega) (by omega) (by omega)
    refine ⟨?_, ?_, ?_, ?_, ?_, ?_⟩
    · dsimp only
      rw [mfind_minsert_ne _ _ _ _ (pair_ne_snd hbf0), mfind_minsert_self]
    · dsimp only
      rw [mfind_minsert_ne _ _ _ _ (pair_ne_snd hbf0), mfind_minsert_self]
    · dsimp only
      rw [mfind_minsert_self]
    · dsimp only
      rw [mfind_minsert_self]
    · dsimp only
      rw [mfind_minsert_self]
    · intro _
      dsimp only
      rw [fpFold_scc_find]
      · rfl
      · intro i hi
        have hi2 : i < fl.length - 2 := List.mem_range.mp hi
        exact pair_ne_fst (nodup_getD_ne hnd (by omega) (by omega) (by omega))

def fpExDefault : FPMaps := ⟨[], [], [], [], []⟩

/-- The concrete output of filament_pointers on the filament [0, 1, 2]. -/
def fpEx : FPMaps := (filament_pointers [0, 1, 2] []).getD fpExDefault

/-- C9 (counterexample): on the filament [0,1,2] the end_cc pointer of the
last edge (1,2) is its twin (2,1), not the edge itself. -/
theorem filament_pointers_ecc_not_self :
    filament_pointers [0, 1, 2] [] = some fpEx ∧
    mfind fpEx.ecc (1, 2) = some (2, 1) ∧
    mfind fpEx.ecc (1, 2) ≠ some ((1 : Node), (2 : Node)) := by
  refine ⟨rfl, rfl, by decide⟩

/-- C9 (witness): the amended theorem applied to the filament [0, 1, 2]. -/
theorem filament_pointers_end_edges_witness :
    mfind fpEx.ec (1, 2) = some (1, 2) ∧
    mfind fpEx.ecc (1, 2) = some (2, 1) ∧
    mfind fpEx.ec (1, 0) = some (1, 0) ∧
    mfind fpEx.ecc (1, 0) = some (0, 1) ∧
    mfind fpEx.sc (0, 1) = some (0, 1) ∧
    mfind fpEx.scc (0, 1) = none := by
  have h := filament_pointers_end_edges [0, 1, 2] [] fpEx (by decide) rfl
  obtain ⟨h1, h2, h3, h4, h5, h6⟩ := h
  exact ⟨h1, h2, h3, h4, h5, h6 (by decide)⟩

/-! ### regions_from_graph : the Cycle/Filament Extractor (wed.py lines 716-1106)

The `remove_holes=True` branch is omitted: every call in this repository
uses the default `remove_holes=False`.  Coordinates are exact rationals;
Python-2 floats are modelled by real-valued (here rational) arithmetic.
`nodes` and `node_coord` are the caller-owned dicts that the extractor
mutates; they are threaded through the state and returned, so that the
effect on the caller's objects is visible. -/

abbrev NMap := List (Node × Coord)
abbrev CMap := List (Coord × Node)

/-- 2-d cross product `a[0]*b[1] - a[1]*b[0]`. -/
def cr (a b : Coord) : Q := a.1 * b.2 - a.2 * b.1

/-- wed.py `adj_nodes`: all successors of start_key in the edge list. -/
def adj_nodes (k : Node) (edges : List Edge) : List Node :=
  (edges.filter (fun e => e.1 == k)).map Prod.snd

/-- Scan of `clockwise` over the candidate neighbours.  The accumulator is
`(v_next, d_next, convex)`; in `clockwise` convex is kept as a Bool.  The
first candidate initialises the accumulator and then falls through the
update test in the same iteration, exactly as in the source. -/
def cwScan (nodes : NMap) (vcurr dcurr : Coord) :
    List Node → Option (Coord × Coord × Bool) → Option (Option (Coord × Coord × Bool))
  | [], acc => some acc
  | vadj :: rest, acc =>
      match mfind nodes vadj with
      | none => none
      | some cadj =>
          if cadj = ((0 : Q), (-1 : Q)) then cwScan nodes vcurr dcurr rest acc
          else
            let dadj : Coord := (cadj.1 - vcurr.1, cadj.2 - vcurr.2)
            let acc1 :=
              match acc with
              | none => (cadj, dadj, decide (cr dadj dcurr ≤ 0))
              | some s => s
            let upd : Bool :=
              if acc1.2.2 then
                decide (cr dcurr dadj < 0) || decide (cr acc1.2.1 dadj < 0)
              else
                decide (cr dcurr dadj < 0) && decide (cr acc1.2.1 dadj < 0)
            let acc2 := if upd then (cadj, dadj, decide (cr dadj dcurr ≤ 0)) else acc1
            cwScan nodes vcurr dcurr rest (some acc2)

/-- wed.py `clockwise` (lines 799-849), specialised to its only call pattern:
`v_prev` is always `None`, so the reference previous position is `(0,-1)`
and a candidate lying exactly at `(0,-1)` is skipped.  Returns the id of
the clockwise-most neighbour; `none` models the uncaught exceptions
(missing node, or no candidate so that `v_next.tolist()` raises). -/
def clockwise (nodes : NMap) (ncoord : CMap) (vnext : List Node) (startKey : Node) :
    Option Node :=
  match mfind nodes startKey with
  | none => none
  | some vcurr =>
      let dcurr : Coord := (vcurr.1 - 0, vcurr.2 - (-1 : Q))
      match cwScan nodes vcurr dcurr vnext none with
      | none => none
      | some none => none
      | some (some s) => mfind ncoord s.1

/-- Scan of `counterclockwise`; there convex is kept as a number and the
candidate equal to `prev_key` is skipped by id. -/
def ccwScan (nodes : NMap) (vcurr dcurr : Coord) (prevKey : Node) :
    List Node → Option (Coord × Coord × Q) → Option (Option (Coord × Coord × Q))
  | [], acc => some acc
  | vadj :: rest, acc =>
      if vadj = prevKey then ccwScan nodes vcurr dcurr prevKey rest acc
      else
        match mfind nodes vadj with
        | none => none
        | some cadj =>
            let dadj : Coord := (cadj.1 - vcurr.1, cadj.2 - vcurr.2)
            let acc1 :=
              match acc with
              | none => (cadj, dadj, cr dadj dcurr)
              | some s => s
            let acc2 :=
              if acc1.2.2 ≤ 0 then
                if cr dcurr dadj > 0 ∧ cr acc1.2.1 dadj > 0 then
                  (cadj, dadj, cr dadj dcurr)
                else acc1
              else
                if cr dcurr dadj > 0 ∨ cr acc1.2.1 dadj > 0 then
                  (cadj, dadj, cr dadj dcurr)
                else acc1
            ccwScan nodes vcurr dcurr prevKey rest (some acc2)

/-- wed.py `counterclockwise` (lines 850-885).  The outer `none` is an
uncaught exception; `some none` is the caught case that returns
`(v_next, None, prev_key)` (no candidate, or node_coord lookup failure
inside the try block). -/
def counterclockwise (nodes : NMap) (ncoord : CMap) (vnexts : List Node)
    (startKey prevKey : Node) : Option (Option Node) :=
  match mfind nodes prevKey, mfind nodes startKey with
  | some vprev, some vcurr =>
      let dcurr : Coord := (vcurr.1 - vprev.1, vcurr.2 - vprev.2)
      match ccwScan nodes vcurr dcurr prevKey vnexts none with
      | none => none
      | some none => some none
      | some (some s) =>
          match mfind ncoord s.1 with
          | none => some none
          | some i => some (some i)
  | _, _ => none

inductive Prim
  | iso (v : Node)
  | fil (l : List Node)
  deriving DecidableEq

structure RGS where
  nodes : NMap
  ncoord : CMap
  edges : List Edge
  extEdges : List Edge
  sortedNodes : NMap
  prims : List Prim
  cycles : List (List Node)
  cycleEdge : List Edge
  verts : NMap
  deriving DecidableEq

/-- wed.py `remove_edge`: both directions are appended to ext_edges before
the removals; a failed first removal (caught exception) skips the second. -/
def remove_edge (v0 v1 : Node) (edges extE : List Edge) : List Edge × List Edge :=
  let extE2 := extE ++ [(v0, v1), (v1, v0)]
  if (v0, v1) ∈ edges then
    let e1 := edges.erase (v0, v1)
    if (v1, v0) ∈ e1 then (e1.erase (v1, v0), extE2) else (e1, extE2)
  else (edges, extE2)

/-- wed.py `remove_heap`. -/
def remove_heap (v0 : Node) (sortedNodes : NMap) : NMap :=
  sortedNodes.filter (fun x => x.1 != v0)

/-- wed.py `remove_node`: record the coordinate in vertices, then delete
from node_coord and nodes; a missing key raises, hence `none`. -/
def remove_node (v0 : Node) (st : RGS) : Option RGS :=
  match mfind st.nodes v0 with
  | none => none
  | some c =>
      match mfind st.ncoord c with
      | none => none
      | some _ =>
          some { st with verts := minsert st.verts v0 c,
                         ncoord := mdel st.ncoord c,
                         nodes := mdel st.nodes v0 }

/-- wed.py `extractisolated`. -/
def extractisolated (v0 : Node) (st : RGS) : Option RGS :=
  remove_node v0 { st with prims := st.prims ++ [Prim.iso v0] }

/-- The while-loop of the `iscycle` branch of `extractfilament`; returns
the final v0 together with the state. -/
def efCycleLoop : ℕ → Node → RGS → Option (Node × RGS)
  | 0, _, _ => none
  | fuel + 1, v0, st =>
      if (adj_nodes v0 st.edges).length = 1 then
        let v1 := (adj_nodes v0 st.edges).headD 0
        if (v0, v1) ∈ st.cycleEdge ∨ (v1, v0) ∈ st.cycleEdge then
          let p := remove_edge v0 v1 st.edges st.extEdges
          (remove_node v0 { st with edges := p.1, extEdges := p.2 }).bind (fun st2 =>
            efCycleLoop fuel v1 { st2 with sortedNodes := remove_heap v0 st2.sortedNodes })
        else some (v0, st)
      else some (v0, st)

/-- The `iscycle` branch of `extractfilament` (deletes a chain of cycle
edges without emitting a filament). -/
def efCycle (fuel : ℕ) (v0 v1 : Node) (st : RGS) : Option RGS :=
  let pre : Node × RGS :=
    if 3 ≤ (adj_nodes v0 st.edges).length then
      let p := remove_edge v0 v1 st.edges st.extEdges
      (v1, { st with edges := p.1, extEdges := p.2 })
    else (v0, st)
  (efCycleLoop fuel pre.1 pre.2).bind (fun pr =>
    if (adj_nodes pr.1 pr.2.edges).length = 0 then
      (remove_node pr.1 pr.2).bind (fun st3 =>
        some { st3 with sortedNodes := remove_heap pr.1 st3.sortedNodes })
    else some pr.2)

/-- The while-loop of the filament branch of `extractfilament`; returns the
final (v0, v1), the accumulated primitive, and the state. -/
def efFilLoop : ℕ → Node → Node → List Node → RGS → Option (Node × Node × List Node × RGS)
  | 0, _, _, _, _ => none
  | fuel + 1, v0, v1, prim, st =>
      if (adj_nodes v0 st.edges).length = 1 then
        let v1b := (adj_nodes v0 st.edges).headD 0
        let st1 := { st with sortedNodes := remove_heap v0 st.sortedNodes }
        let p := remove_edge v0 v1b st1.edges st1.extEdges
        (remove_node v0 { st1 with edges := p.1, extEdges := p.2 }).bind (fun st2 =>
          efFilLoop fuel v1b v1b (prim ++ [v0]) st2)
      else some (v0, v1, prim, st)

/-- The filament branch of `extractfilament`. -/
def efFil (fuel : ℕ) (v0 v1 : Node) (st : RGS) : Option RGS :=
  let pre : Node × List Node × RGS :=
    if 3 ≤ (adj_nodes v0 st.edges).length then
      let p := remove_edge v0 v1 st.edges st.extEdges
      (v1, [v0], { st with edges := p.1, extEdges := p.2 })
    else (v0, [], st)
  (efFilLoop fuel pre.1 v1 pre.2.1 pre.2.2).bind (fun r =>
    ((if (adj_nodes r.1 r.2.2.2.edges).length = 0 then
        let st3 := { r.2.2.2 with sortedNodes := remove_heap r.1 r.2.2.2.sortedNodes }
        let p := remove_edge r.1 r.2.1 st3.edges st3.extEdges
        remove_node r.1 { st3 with edges := p.1, extEdges := p.2 }
      else some r.2.2.2) : Option RGS).bind (fun st4 =>
      some { st4 with prims := st4.prims ++ [Prim.fil (r.2.2.1 ++ [r.1])] }))

/-- wed.py `extractfilament` (lines 911-965).  The `iscycle` parameter is
always left at its default False by every caller, so only the membership
test on cycle_edge decides the branch. -/
def extractfilament (fuel : ℕ) (v0 v1 : Node) (st : RGS) : Option RGS :=
  if (v0, v1) ∈ st.cycleEdge ∨ (v1, v0) ∈ st.cycleEdge then efCycle fuel v0 v1 st
  else efFil fuel v0 v1 st

inductive WalkOut
  | cyc
  | dead (vprev : Node)
  | revisit
  deriving DecidableEq

/-- The minimal-cycle search loop of `extract_primitives`: repeatedly take
the counter-clockwise-most neighbour, stopping on return to v0 (cycle),
dead end (filament), or revisit. -/
def ccwWalk (st : RGS) (v0 : Node) :
    ℕ → List Node → List Node → Node → Node → Option (WalkOut × List Node)
  | 0, _, _, _, _ => none
  | fuel + 1, visited, seq, vprev, vcurr =>
      if vcurr = v0 then some (WalkOut.cyc, seq)
      else if vcurr ∈ visited then some (WalkOut.revisit, seq)
      else
        let seq2 := seq ++ [vcurr]
        let visited2 := visited ++ [vcurr]
        match counterclockwise st.nodes st.ncoord (adj_nodes vcurr st.edges) vcurr vprev with
        | none => none
        | some none => some (WalkOut.dead vcurr, seq2)
        | some (some vnxt) => ccwWalk st v0 fuel visited2 seq2 vcurr vnxt

/-- The degree-2 chase of the revisit branch of `extract_primitives`. -/
def revisitChase : ℕ → Node → Node → List Edge → Option (Node × Node)
  | 0, _, _, _ => none
  | fuel + 1, v0, v1, edges =>
      let adj := adj_nodes v0 edges
      if adj.length = 2 then
        if adj.headD 0 ≠ v1 then revisitChase fuel (adj.headD 0) v0 edges
        else revisitChase fuel (adj.getD 1 0) v0 edges
      else some (v0, v1)

/-- The cycle_edge markings for the recorded cycle: wed.py lines 1024-1026. -/
def markCycleEdges (seqFull : List Node) (ce : List Edge) : List Edge :=
  (List.range (seqFull.length - 2)).foldl
    (fun acc i =>
      acc ++ [(seqFull.getD (i + 1) 0, seqFull.getD i 0),
              (seqFull.getD i 0, seqFull.getD (i + 1) 0)])
    ce

/-- The tail of the cycle branch of `extract_primitives`: record the cycle,
remove the first edge, then conditionally extract the filaments now hanging
off v0 and v1, then mark the cycle edges. -/
def epCycleBranch (fuel : ℕ) (v0 v1 : Node) (seqFull : List Node) (st : RGS) : Option RGS :=
  let st1 := { st with cycles := st.cycles ++ [seqFull] }
  let p := remove_edge v0 v1 st1.edges st1.extEdges
  let st2 := { st1 with edges := p.1, extEdges := p.2,
                        sortedNodes := remove_heap v0 st1.sortedNodes }
  ((if (adj_nodes v0 st2.edges).length = 1 then
      extractfilament fuel v0 ((adj_nodes v0 st2.edges).headD 0)
        { st2 with cycleEdge := st2.cycleEdge ++
            [(v0, (adj_nodes v0 st2.edges).headD 0), ((adj_nodes v0 st2.edges).headD 0, v0)] }
    else some st2) : Option RGS).bind (fun st3 =>
    ((if (adj_nodes v1 st3.edges).length = 1 then
        extractfilament fuel v1 ((adj_nodes v1 st3.edges).headD 0)
          { st3 with cycleEdge := st3.cycleEdge ++
              [(v1, (adj_nodes v1 st3.edges).headD 0), ((adj_nodes v1 st3.edges).headD 0, v1)] }
      else some st3) : Option RGS).bind (fun st4 =>
      some { st4 with cycleEdge := markCycleEdges seqFull st4.cycleEdge }))

/-- wed.py `extract_primitives` (lines 967-1039). -/
def extract_primitives (fuel : ℕ) (startKey : Node) (st : RGS) : Option RGS :=
  let v0 := startKey
  (clockwise st.nodes st.ncoord (adj_nodes startKey st.edges) startKey).bind (fun v1 =>
    (ccwWalk st v0 fuel [] [v0] v0 v1).bind (fun w =>
      match w.1 with
      | WalkOut.dead vprev =>
          match adj_nodes vprev st.edges with
          | [] => none
          | a :: _ => extractfilament fuel vprev a st
      | WalkOut.revisit =>
          (revisitChase fuel v0 v1 st.edges).bind (fun pr =>
            extractfilament fuel pr.1 pr.2 st)
      | WalkOut.cyc => epCycleBranch fuel v0 v1 (w.2 ++ [v0]) st))

/-- The main `while sorted_nodes` loop of regions_from_graph. -/
def rgLoop : ℕ → ℕ → RGS → Option RGS
  | 0, _, _ => none
  | fuel + 1, ifuel, st =>
      match st.sortedNodes with
      | [] => some st
      | (k, _) :: _ =>
          if (adj_nodes k st.edges).length = 0 then
            (extractisolated k st).bind (fun st2 =>
              rgLoop fuel ifuel { st2 with sortedNodes := st2.sortedNodes.tail })
          else if (adj_nodes k st.edges).length = 1 then
            (extractfilament ifuel k ((adj_nodes k st.edges).headD 0) st).bind
              (rgLoop fuel ifuel)
          else
            (extract_primitives ifuel k st).bind (rgLoop fuel ifuel)

/-- Strict lexicographic order on coordinate pairs (Python tuple `<`). -/
def coordLtB (a b : Coord) : Bool :=
  decide (a.1 < b.1) || (decide (a.1 = b.1) && decide (a.2 < b.2))

def insertSorted (p : Node × Coord) : NMap → NMap
  | [] => [p]
  | q :: t => if coordLtB p.2 q.2 then p :: q :: t else q :: insertSorted p t

/-- `sorted(nodes.iteritems(), key=itemgetter(1))`: stable sort by
coordinate. -/
def sortNodes (l : NMap) : NMap := l.foldl (fun acc p => insertSorted p acc) []

def primFilaments : List Prim → List (List Node)
  | [] => []
  | Prim.iso _ :: t => primFilaments t
  | Prim.fil l :: t => l :: primFilaments t

structure RGResult where
  regions : List (List Node)
  filaments : List (List Node)
  verts : NMap
  extEdges : List Edge
  finalNodes : NMap
  finalEdges : List Edge
  deriving DecidableEq

/-- wed.py `WED.regions_from_graph` with the default remove_holes=False.
finalNodes / finalEdges are the post-run contents of the caller-owned
`nodes` dict and `edges` list (both mutated in place by the Python code). -/
def regions_from_graph (nodes : NMap) (edges : List Edge) (fuel : ℕ) : Option RGResult :=
  let sortedNodes := sortNodes nodes
  let ncoord : CMap := nodes.foldl (fun m p => minsert m p.2 p.1) []
  let st0 : RGS := ⟨nodes, ncoord, edges, [], sortedNodes, [], [], [], []⟩
  (rgLoop fuel fuel st0).bind (fun st =>
    some ⟨st.cycles, primFilaments st.prims, st.verts, st.extEdges, st.nodes, st.edges⟩)

/-! ### C8: the Eberly reference graph (docstring of regions_from_graph) -/

/-- The 28 vertices of the Eberly reference graph, as in the source
docstring (vertex 17 is isolated). -/
def eberlyNodes : NMap := [
  (0, (1, 8)), (1, (1, 7)), (2, (4, 7)), (3, (0, 4)), (4, (5, 4)), (5, (3, 5)),
  (6, (2, qq 9 2)), (7, (qq 13 2, 9)), (8, (qq 31 5, 5)), (9, (qq 11 2, 3)), (10, (7, 3)),
  (11, (qq 15 2, qq 29 4)), (12, (8, 4)), (13, (qq 23 2, qq 29 4)), (14, (9, 1)),
  (15, (11, 3)), (16, (12, 2)), (17, (12, 5)), (18, (qq 27 2, 6)), (19, (14, qq 29 4)),
  (20, (16, 4)), (21, (18, qq 17 2)), (22, (16, 1)), (23, (21, 1)), (24, (21, 4)),
  (25, (18, qq 7 2)), (26, (17, 2)), (27, (19, 2))]

/-- The edge list of the Eberly reference graph, as in the source docstring. -/
def eberlyEdges : List Edge := [(1, 2), (1, 3), (2, 1), (2, 4), (2, 7), (3, 1), (3, 4),
  (4, 2), (4, 3), (4, 5), (5, 4), (5, 6), (6, 5), (7, 2), (7, 11), (8, 9), (8, 10),
  (9, 8), (9, 10), (10, 8), (10, 9), (11, 7), (11, 12), (11, 13), (12, 11), (12, 13),
  (12, 20), (13, 11), (13, 12), (13, 18), (14, 15), (15, 14), (15, 16), (16, 15),
  (18, 13), (18, 19), (19, 18), (19, 20), (19, 21), (20, 12), (20, 19), (20, 21),
  (20, 22), (20, 24), (21, 19), (21, 20), (22, 20), (22, 23), (23, 22), (23, 24),
  (24, 20), (24, 23), (25, 26), (25, 27), (26, 25), (26, 27), (27, 25), (27, 26)]

/-- C8: on the Eberly reference graph, regions_from_graph returns exactly the
seven bounded cycles and three filaments of the docstring; in particular
there are 7 cycles, the filaments are [6,5,4], [2,7,11], [14,15,16], and the
cycles include [9,10,8,9] and [26,27,25,26]. -/
theorem regions_from_graph_eberly :
    (regions_from_graph eberlyNodes eberlyEdges 300).map RGResult.regions =
      some [[3, 4, 2, 1, 3], [9, 10, 8, 9], [11, 12, 13, 11], [12, 20, 19, 18, 13, 12],
            [19, 20, 21, 19], [22, 23, 24, 20, 22], [26, 27, 25, 26]] ∧
    (regions_from_graph eberlyNodes eberlyEdges 300).map RGResult.filaments =
      some [[6, 5, 4], [2, 7, 11], [14, 15, 16]] ∧
    ([[3, 4, 2, 1, 3], [9, 10, 8, 9], [11, 12, 13, 11], [12, 20, 19, 18, 13, 12],
      [19, 20, 21, 19], [22, 23, 24, 20, 22], [26, 27, 25, 26]] :
        List (List Node)).length = 7 ∧
    [9, 10, 8, 9] ∈ ([[3, 4, 2, 1, 3], [9, 10, 8, 9], [11, 12, 13, 11],
      [12, 20, 19, 18, 13, 12], [19, 20, 21, 19], [22, 23, 24, 20, 22],
      [26, 27, 25, 26]] : List (List Node)) ∧
    [26, 27, 25, 26] ∈ ([[3, 4, 2, 1, 3], [9, 10, 8, 9], [11, 12, 13, 11],
      [12, 20, 19, 18, 13, 12], [19, 20, 21, 19], [22, 23, 24, 20, 22],
      [26, 27, 25, 26]] : List (List Node)) := by
  refine ⟨by decide, by decide, by decide, by decide, by decide⟩

/-! ### C10: every recorded region is an explicitly closed cycle -/

/-- A region list that is explicitly closed: nonempty, first entry equals
last entry, the entries before the final repeat are pairwise distinct, and
the length is the number of distinct boundary nodes plus one. -/
def ClosedCycleList (r : List Node) : Prop :=
  r ≠ [] ∧ r.head? = r.getLast? ∧ r.dropLast.Nodup ∧ r.length = r.toFinset.card + 1

theorem closedCycle_of_nodup_head {seq : List Node} {v0 : Node}
    (hnd : seq.Nodup) (hh : seq.head? = some v0) : ClosedCycleList (seq ++ [v0]) := by
  cases seq with
  | nil => cases hh
  | cons a t =>
      have ha : a = v0 := by
        injection hh
      subst ha
      refine ⟨by simp, ?_, ?_, ?_⟩
      · rw [List.getLast?_concat]
        rfl
      · rw [List.dropLast_concat]
        exact hnd
      · have hfin : ((a :: t) ++ [a]).toFinset = (a :: t).toFinset := by
          rw [List.toFinset_append]
          apply Finset.union_eq_left.mpr
          intro x hx
          simp only [List.toFinset_cons, List.toFinset_nil] at hx ⊢
          simp at hx
          simp [hx]
        rw [hfin, List.toFinset_card_of_nodup hnd]
        simp

theorem ccwWalk_cyc (st : RGS) (v0 : Node) :
    ∀ (fuel : ℕ) (visited seq : List Node) (vprev vcurr : Node) (w : WalkOut × List Node),
    ccwWalk st v0 fuel visited seq vprev vcurr = some w →
    w.1 = WalkOut.cyc →
    seq = v0 :: visited → (v0 :: visited).Nodup →
    w.2.Nodup ∧ w.2.head? = some v0 := by
  intro fuel
  induction fuel with
  | zero =>
      intro visited seq vprev vcurr w hw
      cases hw
  | succ n ih =>
      intro visited seq vprev vcurr w hw hcyc hseq hnd
      unfold ccwWalk at hw
      by_cases h0 : vcurr = v0
      · rw [if_pos h0] at hw
        injection hw with hw
        subst hw
        subst hseq
        exact ⟨hnd, rfl⟩
      · rw [if_neg h0] at hw
        by_cases h1 : vcurr ∈ visited
        · rw [if_pos h1] at hw
          injection hw with hw
          subst hw
          cases hcyc
        · rw [if_neg h1] at hw
          cases hc : counterclockwise st.nodes st.ncoord (adj_nodes vcurr st.edges) vcurr vprev with
          | none =>
              rw [hc] at hw
              cases hw
          | some o =>
              rw [hc] at hw
              cases o with
              | none =>
                  injection hw with hw
                  subst hw
                  cases hcyc
              | some vnxt =>
                  refine ih (visited ++ [vcurr]) (seq ++ [vcurr]) vcurr vnxt w hw hcyc ?_ ?_
                  · rw [hseq]
                    rfl
                  · have hvc : vcurr ∉ v0 :: visited := by
                      intro hmem
                      rcases List.mem_cons.mp hmem with h2 | h2
                      · exact h0 h2
                      · exact h1 h2
                    have : (v0 :: visited) ++ [vcurr] = v0 :: (visited ++ [vcurr]) := rfl
                    rw [← this]
                    rw [List.nodup_append]
                    refine ⟨hnd, List.nodup_singleton vcurr, ?_⟩
                    intro x hx hy
                    have hxv : x = vcurr := by simpa using hy
                    subst hxv
                    exact hvc hx


theorem remove_node_cycles {v0 : Node} {st st2 : RGS} (h : remove_node v0 st = some st2) :
    st2.cycles = st.cycles := by
  unfold remove_node at h
  split at h
  · cases h
  · split at h
    · cases h
    · injection h with h
      subst h
      rfl

theorem extractisolated_cycles {v0 : Node} {st st2 : RGS}
    (h : extractisolated v0 st = some st2) : st2.cycles = st.cycles := by
  unfold extractisolated at h
  have h2 := remove_node_cycles h
  exact h2

theorem efCycleLoop_cycles : ∀ (fuel : ℕ) (v0 : Node) (st : RGS) (p : Node × RGS),
    efCycleLoop fuel v0 st = some p → p.2.cycles = st.cycles := by
  intro fuel
  induction fuel with
  | zero => intro v0 st p h; cases h
  | succ n ih =>
      intro v0 st p h
      unfold efCycleLoop at h
      simp only [] at h
      split at h
      · split at h
        · rw [Option.bind_eq_some] at h
          obtain ⟨st2, hrn, h2⟩ := h
          have h3 := ih _ _ _ h2
          rw [h3]
          have h4 := remove_node_cycles hrn
          exact h4
        · injection h with h
          subst h
          rfl
      · injection h with h
        subst h
        rfl

theorem efCycle_cycles {fuel : ℕ} {v0 v1 : Node} {st st2 : RGS}
    (h : efCycle fuel v0 v1 st = some st2) : st2.cycles = st.cycles := by
  unfold efCycle at h
  simp only [] at h
  rw [Option.bind_eq_some] at h
  obtain ⟨pr, hloop, h2⟩ := h
  have hl := efCycleLoop_cycles _ _ _ _ hloop
  have hpre : pr.2.cycles = st.cycles := by
    rw [hl]
    split
    · rfl
    · rfl
  split at h2
  · rw [Option.bind_eq_some] at h2
    obtain ⟨st3, hrn, h3⟩ := h2
    injection h3 with h3
    subst h3
    show st3.cycles = st.cycles
    rw [remove_node_cycles hrn]
    exact hpre
  · injection h2 with h2
    subst h2
    exact hpre

theorem efFilLoop_cycles :
    ∀ (fuel : ℕ) (v0 v1 : Node) (prim : List Node) (st : RGS)
      (p : Node × Node × List Node × RGS),
    efFilLoop fuel v0 v1 prim st = some p → p.2.2.2.cycles = st.cycles := by
  intro fuel
  induction fuel with
  | zero => intro v0 v1 prim st p h; cases h
  | succ n ih =>
      intro v0 v1 prim st p h
      unfold efFilLoop at h
      simp only [] at h
      split at h
      · rw [Option.bind_eq_some] at h
        obtain ⟨st2, hrn, h2⟩ := h
        have h3 := ih _ _ _ _ _ h2
        rw [h3]
        have h4 := remove_node_cycles hrn
        exact h4
      · injection h with h
        subst h
        rfl

theorem efFil_cycles {fuel : ℕ} {v0 v1 : Node} {st st2 : RGS}
    (h : efFil fuel v0 v1 st = some st2) : st2.cycles = st.cycles := by
  unfold efFil at h
  simp only [] at h
  rw [Option.bind_eq_some] at h
  obtain ⟨r, hloop, h2⟩ := h
  have hl := efFilLoop_cycles _ _ _ _ _ _ hloop
  have hpre : r.2.2.2.cycles = st.cycles := by
    rw [hl]
    split
    · rfl
    · rfl
  rw [Option.bind_eq_some] at h2
  obtain ⟨st4, h4, h5⟩ := h2
  injection h5 with h5
  subst h5
  show st4.cycles = st.cycles
  split at h4
  · rw [remove_node_cycles h4]
    exact hpre
  · injection h4 with h4
    subst h4
    exact hpre

theorem extractfilament_cycles {fuel : ℕ} {v0 v1 : Node} {st st2 : RGS}
    (h : extractfilament fuel v0 v1 st = some st2) : st2.cycles = st.cycles := by
  unfold extractfilament at h
  split at h
  · exact efCycle_cycles h
  · exact efFil_cycles h

theorem epCycleBranch_cycles {fuel : ℕ} {v0 v1 : Node} {seqFull : List Node} {st st2 : RGS}
    (h : epCycleBranch fuel v0 v1 seqFull st = some st2) :
    st2.cycles = st.cycles ++ [seqFull] := by
  unfold epCycleBranch at h
  simp only [] at h
  rw [Option.bind_eq_some] at h
  obtain ⟨st3, h3, h2⟩ := h
  rw [Option.bind_eq_some] at h2
  obtain ⟨st4, h4, h5⟩ := h2
  injection h5 with h5
  subst h5
  show st4.cycles = _
  have hc3 : st3.cycles = st.cycles ++ [seqFull] := by
    split at h3
    · rw [extractfilament_cycles h3]
    · injection h3 with h3
      subst h3
      rfl
  have hc4 : st4.cycles = st3.cycles := by
    split at h4
    · have h6 := extractfilament_cycles h4
      exact h6
    · injection h4 with h4
      subst h4
      rfl
  rw [hc4, hc3]

theorem extract_primitives_cycles {fuel k : ℕ} {st st2 : RGS}
    (h : extract_primitives fuel k st = some st2) :
    ∀ r ∈ st2.cycles, r ∈ st.cycles ∨ ClosedCycleList r := by
  unfold extract_primitives at h
  simp only [] at h
  rw [Option.bind_eq_some] at h
  obtain ⟨v1, hcw, h2⟩ := h
  rw [Option.bind_eq_some] at h2
  obtain ⟨w, hwalk, h3⟩ := h2
  split at h3
  · -- dead
    split at h3
    · cases h3
    · intro r hr
      rw [extractfilament_cycles h3] at hr
      exact Or.inl hr
  · -- revisit
    rw [Option.bind_eq_some] at h3
    obtain ⟨pr, _, h4⟩ := h3
    intro r hr
    rw [extractfilament_cycles h4] at hr
    exact Or.inl hr
  · -- cyc
    rename_i hw1
    have hcb := epCycleBranch_cycles h3
    intro r hr
    rw [hcb] at hr
    rcases List.mem_append.mp hr with h5 | h5
    · exact Or.inl h5
    · right
      have h6 : r = w.2 ++ [k] := by simpa using h5
      subst h6
      have h7 := ccwWalk_cyc st k fuel [] [k] k v1 w hwalk hw1 rfl (by simp)
      exact closedCycle_of_nodup_head h7.1 h7.2

theorem rgLoop_cycles : ∀ (fuel ifuel : ℕ) (st st2 : RGS),
    rgLoop fuel ifuel st = some st2 →
    ∀ r ∈ st2.cycles, r ∈ st.cycles ∨ ClosedCycleList r := by
  intro fuel
  induction fuel with
  | zero => intro ifuel st st2 h; cases h
  | succ n ih =>
      intro ifuel st st2 h
      unfold rgLoop at h
      split at h
      · injection h with h
        subst h
        exact fun r hr => Or.inl hr
      · split at h
        · rw [Option.bind_eq_some] at h
          obtain ⟨sta, hiso, h2⟩ := h
          intro r hr
          rcases ih _ _ _ h2 r hr with h3 | h3
          · left
            have h4 : sta.cycles = st.cycles := extractisolated_cycles hiso
            rw [← h4]
            exact h3
          · exact Or.inr h3
        · split at h
          · rw [Option.bind_eq_some] at h
            obtain ⟨sta, hfil, h2⟩ := h
            intro r hr
            rcases ih _ _ _ h2 r hr with h3 | h3
            · left
              rw [← extractfilament_cycles hfil]
              exact h3
            · exact Or.inr h3
          · rw [Option.bind_eq_some] at h
            obtain ⟨sta, hep, h2⟩ := h
            intro r hr
            rcases ih _ _ _ h2 r hr with h3 | h3
            · exact extract_primitives_cycles hep r h3
            · exact Or.inr h3

/-- C10: every region list returned by regions_from_graph is explicitly
closed: the first node equals the last node (the start vertex is appended
again when the minimal cycle is recorded), the entries before the final
repeat are pairwise distinct, and a region of k distinct boundary nodes has
k + 1 entries. -/
theorem regions_closed (nodes : NMap) (edges : List Edge) (fuel : ℕ) (res : RGResult)
    (h : regions_from_graph nodes edges fuel = some res) :
    ∀ r ∈ res.regions, ClosedCycleList r := by
  unfold regions_from_graph at h
  simp only [] at h
  rw [Option.bind_eq_some] at h
  obtain ⟨st, hloop, h2⟩ := h
  injection h2 with h2
  subst h2
  intro r hr
  rcases rgLoop_cycles fuel fuel _ _ hloop r hr with h3 | h3
  · cases h3
  · exact h3

def triNodes : NMap := [(0, (0, 0)), (1, (1, 0)), (2, (0, 1))]

def triEdgesDbl : List Edge := [(0, 1), (1, 0), (1, 2), (2, 1), (2, 0), (0, 2)]

def rgResDefault : RGResult := ⟨[], [], [], [], [], []⟩

/-- The concrete extractor output on the doubled triangle input. -/
def rgTri : RGResult := (regions_from_graph triNodes triEdgesDbl 100).getD rgResDefault

/-- C10 (witness): the closure theorem applied to the triangle input, whose
single region [0,1,2,0] is closed with 3 distinct nodes and 4 entries. -/
theorem regions_closed_witness :
    regions_from_graph triNodes triEdgesDbl 100 = some rgTri ∧
    [0, 1, 2, 0] ∈ rgTri.regions ∧ ClosedCycleList [0, 1, 2, 0] := by
  refine ⟨rfl, by decide, ?_⟩
  exact regions_closed triNodes triEdgesDbl 100 rgTri rfl [0, 1, 2, 0] (by decide)

/-! ### extract_wed (wed.py lines 215-629)

The exterior stitcher indexes `pos = coords.values()` by node id; as the
source assumes dense integer node ids (see its TO-DO list), this is
modelled as lookup in the coords map.  Python sets of small integers
iterate in ascending order, modelled by sorted duplicate-free lists. -/

/-- Dot product. -/
def dt (a b : Coord) : Q := a.1 * b.1 + a.2 * b.2

/-- Decide `a / sqrt p < b / sqrt q` for p, q > 0.  Comparing `_angle`
values (unsigned angles via math.acos) is comparing cosines in reverse,
and the cosine of the angle between v0 and v is `dot / (|v0| |v|)`, so an
angle comparison reduces to this on `(dot, |v0|^2 |v|^2)` pairs. -/
def cosLt (a p b q : Q) : Bool :=
  if a < 0 then
    if b < 0 then decide (b * b * p < a * a * q) else true
  else
    if b < 0 then false else decide (a * a * q < b * b * p)

/-- The candidate scan of the exterior stitcher (wed.py lines 364-379):
first index whose `_angle` from v0 strictly exceeds the running maximum,
which starts at 0.0 (cosine 1).  `none` models ZeroDivisionError for a
zero-length candidate vector or a missing coordinate. -/
def stitchAngleScan (pos : NMap) (origin v0 : Coord) (s0 : Q) :
    List Edge → ℕ → ℕ → Option (Q × Q) → Option ℕ
  | [], _, j, _ => some j
  | cand :: rest, i, j, best =>
      match mfind pos cand.2 with
      | none => none
      | some c2 =>
          let v1 : Coord := (c2.1 - origin.1, c2.2 - origin.2)
          let s1 := dt v1 v1
          if s1 = 0 then none
          else
            let d := dt v0 v1
            let gt : Bool :=
              match best with
              | none => cosLt d (s0 * s1) 1 1
              | some b => cosLt d (s0 * s1) b.1 b.2
            if gt then stitchAngleScan pos origin v0 s0 rest (i + 1) i (some (d, s0 * s1))
            else stitchAngleScan pos origin v0 s0 rest (i + 1) j best

/-- wed.py lines 360-381: index of the next edge of an exterior chain.
With more than one candidate the source compares math.acos angles against
the vector from `current` — the first edge of this union, whose variable is
never advanced — measured at origin pos[current[1]]. -/
def stitchChoose (pos : NMap) (current : Edge) (cands : List Edge) : Option ℕ :=
  if 1 < cands.length then
    match mfind pos current.2, mfind pos current.1 with
    | some origin, some pa =>
        let v0 : Coord := (pa.1 - origin.1, pa.2 - origin.2)
        let s0 := dt v0 v0
        if s0 = 0 then none
        else stitchAngleScan pos origin v0 s0 cands 0 0 none
    | _, _ => none
  else some 0

/-- The inner chain-tracing loop (wed.py lines 359-384). -/
def stitchInner (pos : NMap) (pathHead : Node) (current : Edge) :
    ℕ → Node → List Edge → List Edge → Option (List Edge × List Edge)
  | 0, _, _, _ => none
  | fuel + 1, tail, pool, path =>
      if tail = pathHead then some (path, pool)
      else
        let cands := pool.filter (fun e => e.1 == tail)
        match stitchChoose pos current cands with
        | none => none
        | some j =>
            match cands[j]? with
            | none => none
            | some nxt =>
                stitchInner pos pathHead current fuel nxt.2 (pool.erase nxt) (path ++ [nxt])

/-- The outer union loop (wed.py lines 353-385): pop the last unassigned
edge and trace its chain. -/
def stitchOuter (pos : NMap) :
    ℕ → List Edge → List (List Edge) → Option (List (List Edge))
  | 0, _, _ => none
  | fuel + 1, pool, unions =>
      match pool.getLast? with
      | none => some unions
      | some current =>
          match stitchInner pos current.1 current fuel current.2 pool.dropLast [current] with
          | none => none
          | some pr => stitchOuter pos fuel pr.2 (unions ++ [pr.1])

/-- wed.py lines 394-401: install start_cc / end_c along one union path.  A
union of a single edge raises IndexError at union[1], hence none. -/
def installUnion (scc ec : List (Edge × Edge)) (union : List Edge) :
    Option (List (Edge × Edge) × List (Edge × Edge)) :=
  if union.length < 2 then none
  else
    let n := union.length
    let d : Edge := (0, 0)
    let inner := (List.range (n - 2)).foldl
      (fun pr prev =>
        (minsert pr.1 (union.getD (prev + 1) d) (union.getD prev d),
         minsert pr.2 (union.getD (prev + 1) d) (union.getD (prev + 2) d)))
      (scc, ec)
    let scc2 := minsert inner.1 (union.getD 0 d) (union.getD (n - 1) d)
    let ec2 := minsert inner.2 (union.getD 0 d) (union.getD 1 d)
    let ec3 := minsert ec2 (union.getD (n - 1) d) (union.getD 0 d)
    let scc3 := minsert scc2 (union.getD (n - 1) d) (union.getD (n - 2) d)
    some (scc3, ec3)

def installUnions (scc ec : List (Edge × Edge)) :
    List (List Edge) → Option (List (Edge × Edge) × List (Edge × Edge))
  | [] => some (scc, ec)
  | u :: rest => (installUnion scc ec u).bind (fun pr => installUnions pr.1 pr.2 rest)

/-! #### Face pointer builder (wed.py lines 310-330) -/

structure BuildS where
  right : List (Edge × ℕ)
  left : List (Edge × ℕ)
  region_edge : List (ℕ × Edge)
  start_c : List (Edge × Edge)
  start_cc : List (Edge × Edge)
  end_c : List (Edge × Edge)
  end_cc : List (Edge × Edge)
  node_edge : List (Node × Edge)
  deriving DecidableEq

/-- One step of the per-region loop: r is the region with lookback and
lookahead entries prepended / appended. -/
def buildRegionStep (r : List Node) (ri : ℕ) (bs : BuildS) (i : ℕ) : BuildS :=
  let edge : Edge := (r.getD (i + 1) 0, r.getD (i + 2) 0)
  { right := minsert bs.right edge ri,
    left := minsert bs.left (edge.2, edge.1) ri,
    region_edge := bs.region_edge,
    start_c := minsert bs.start_c edge (r.getD i 0, r.getD (i + 1) 0),
    start_cc := minsert bs.start_cc (edge.2, edge.1) (r.getD (i + 2) 0, r.getD (i + 3) 0),
    end_c := minsert bs.end_c (edge.2, edge.1) (r.getD i 0, r.getD (i + 1) 0),
    end_cc := minsert bs.end_cc edge (r.getD (i + 2) 0, r.getD (i + 3) 0),
    node_edge := neSetDefault (neSetDefault bs.node_edge edge.1 edge) edge.2 edge }

/-- Pointer assignment for one (already reversed) region. -/
def buildRegion (bs : BuildS) (ri : ℕ) (region : List Node) : BuildS :=
  let r := [region.getD (region.length - 2) 0] ++ region ++ [region.getD 1 0]
  let bs2 := (List.range (region.length - 1)).foldl (buildRegionStep r ri) bs
  { bs2 with region_edge :=
      (minsert bs2.region_edge ri (r.getD (region.length - 1) 0, r.getD region.length 0)) }

/-! #### Filament insertion (wed.py lines 407-507) -/

/-- `set(l) == set(l0)` on pairs. -/
def setEq (e f : Edge) : Bool :=
  (decide (e.1 = f.1) && decide (e.2 = f.2)) || (decide (e.1 = f.2) && decide (e.2 = f.1))

/-- wed.py `_filament_links_node` chain walk. -/
def filamentLinksLoop (node : Node) (sc ec : List (Edge × Edge)) (l0 : Edge) :
    ℕ → Edge → List Edge → Option (List Edge)
  | 0, _, _ => none
  | fuel + 1, l, links =>
      match (if node = l.1 then mfind sc l else mfind ec l) with
      | none => none
      | some l2 =>
          if setEq l2 l0 then some links
          else filamentLinksLoop node sc ec l0 fuel l2 (links ++ [l2])

/-- wed.py `WED._filament_links_node` (lines 190-213). -/
def filament_links_node (node : Node) (node_edge : List (Node × Edge))
    (sc ec : List (Edge × Edge)) (fuel : ℕ) : Option (List Edge) :=
  match mfind node_edge node with
  | none => some []
  | some l0 => filamentLinksLoop node sc ec l0 fuel l0 [l0]

/-- atan2-degree class in [0,360): 0 on the positive x-axis (and at the
origin, where atan2(0,0) = 0), 1 in (0,180), 2 at 180, 3 in (180,360). -/
def angClass (v : Coord) : ℕ :=
  if (0 : Q) < v.2 then 1
  else if v.2 = 0 then (if v.1 < 0 then 2 else 0)
  else 3

/-- θ(v1) < θ(v2) for atan2 angles normalized to [0,360). -/
def angLt (v1 v2 : Coord) : Bool :=
  if angClass v1 < angClass v2 then true
  else if angClass v2 < angClass v1 then false
  else decide ((0 : Q) < cr v1 v2)

/-- Compare angles after the rotation that brings the filament vector vf to
angle 0 (wed.py lines 451-476): the rotated angle is θ(v) - θ(vf), shifted
into (0, 360] — a link exactly at the filament direction gets 360, not 0. -/
def rotLt (vf v1 v2 : Coord) : Bool :=
  let g1 := angLt vf v1
  let g2 := angLt vf v2
  if g1 = g2 then angLt v1 v2 else g1

/-- First link with minimal rotated angle (`min(link_angles, ...)`). -/
def pickMinLink (vf : Coord) : List (Edge × Coord) → Option (Edge × Coord)
  | [] => none
  | x :: rest => some (rest.foldl (fun best y => if rotLt vf y.2 best.2 then y else best) x)

/-- First link with maximal rotated angle (`max(link_angles, ...)`). -/
def pickMaxLink (vf : Coord) : List (Edge × Coord) → Option (Edge × Coord)
  | [] => none
  | x :: rest => some (rest.foldl (fun best y => if rotLt vf best.2 y.2 then y else best) x)

/-- Link table: each incident link with its end-node vector from the
origin (wed.py lines 457-476 compute the link_angles dict from these). -/
def linkVecs (coordsOrg : NMap) (origin : Coord) (incidentNode : Node) :
    List Edge → Option (List (Edge × Coord))
  | [] => some []
  | link :: rest =>
      let linkNode := if link.1 = incidentNode then link.2 else link.1
      match mfind coordsOrg linkNode with
      | none => none
      | some c =>
          match linkVecs coordsOrg origin incidentNode rest with
          | none => none
          | some t => some ((link, (c.1 - origin.1, c.2 - origin.2)) :: t)

/-- Orient a bisected edge to end at the incident node: flip when
`edge.index(incident_node) != 1`; ValueError (node absent) gives none. -/
def fixDir (e : Edge) (inc : Node) : Option Edge :=
  if e.1 = inc then some (e.2, e.1)
  else if e.2 = inc then some e
  else none

/-- Modelled from the spec: the point-in-polygon test is an external
collaborator (pysal.cg.Polygon.contains_point; spec §1 lists
coordinate-geometry primitives as out of scope, §4.5 step 4 only requires
an inside test).  Even-odd ray crossing towards +x over the closed ring. -/
def containsPoint (poly : List Coord) (pt : Coord) : Bool :=
  (List.range poly.length).foldl
    (fun inside i =>
      let a := poly.getD i (0, 0)
      let b := poly.getD ((i + 1) % poly.length) (0, 0)
      if (a.2 ≤ pt.2 ∧ pt.2 < b.2) ∨ (b.2 ≤ pt.2 ∧ pt.2 < a.2) then
        let lhs := (pt.1 - a.1) * (b.2 - a.2)
        let rhs := (pt.2 - a.2) * (b.1 - a.1)
        if (if (0 : Q) < b.2 - a.2 then lhs < rhs else rhs < lhs) then !inside else inside
      else inside)
    false

def polyCoords (coordsOrg : NMap) : List Node → Option (List Coord)
  | [] => some []
  | n :: t =>
      match mfind coordsOrg n, polyCoords coordsOrg t with
      | some c, some cs => some (c :: cs)
      | _, _ => none

def insertAsc (n : Node) : List Node → List Node
  | [] => [n]
  | x :: t => if n ≤ x then n :: x :: t else x :: insertAsc n t

def sortAsc (l : List Node) : List Node := l.foldr insertAsc []

/-- Face propagation onto the filament edges (wed.py lines 503-507). -/
def propagateFilament (filament : List Node) (r : ℕ)
    (right left : List (Edge × ℕ)) : List (Edge × ℕ) × List (Edge × ℕ) :=
  (List.range (filament.length - 1)).foldl
    (fun pr n =>
      let a := filament.getD n 0
      let b := filament.getD (n + 1) 0
      (minsert (minsert pr.1 (a, b) r) (b, a) r,
       minsert (minsert pr.2 (a, b) r) (b, a) r))
    (right, left)

/-- wed.py lines 500-507: for each incident region, propagate the region id
onto all filament edges when coords_org[filament[1]] lies inside it (the
`or pr.contains_point(...)` of line 502 is dead: Python short-circuits on
the truthy coordinate tuple). -/
def propRegions (coordsOrg : NMap) (filament : List Node) (regionsSets : List (List Node)) :
    List ℕ → List (Edge × ℕ) × List (Edge × ℕ) → Option (List (Edge × ℕ) × List (Edge × ℕ))
  | [], pr => some pr
  | r :: rest, pr =>
      match polyCoords coordsOrg (regionsSets.getD r []) with
      | none => none
      | some poly =>
          match mfind coordsOrg (filament.getD 1 0) with
          | none => none
          | some ptc =>
              propRegions coordsOrg filament regionsSets rest
                (if containsPoint poly ptc then propagateFilament filament r pr.1 pr.2 else pr)

structure FilS where
  start_c : List (Edge × Edge)
  start_cc : List (Edge × Edge)
  end_c : List (Edge × Edge)
  end_cc : List (Edge × Edge)
  right : List (Edge × ℕ)
  left : List (Edge × ℕ)
  node_edge : List (Node × Edge)
  deriving DecidableEq

/-- Processing of one incident node (wed.py lines 431-507). -/
def incidentStep (coordsOrg : NMap) (filament : List Node) (regionsSets : List (List Node))
    (incRegions : List ℕ) (fuel : ℕ) (fs : FilS) (incidentNode : Node) : Option FilS :=
  match filament_links_node incidentNode fs.node_edge fs.start_c fs.end_c fuel with
  | none => none
  | some incidentLinks =>
      match mfind coordsOrg incidentNode with
      | none => none
      | some origin =>
          let fIdx := List.indexOf incidentNode filament
          let fEnd : Node :=
            if fIdx = 0 then filament.getD 1 0
            else if fIdx = 1 then filament.getD 0 0
            else filament.getD (filament.length - 2) 0
          match mfind coordsOrg fEnd with
          | none => none
          | some fEndC =>
              let vf : Coord := (fEndC.1 - origin.1, fEndC.2 - origin.2)
              match linkVecs coordsOrg origin incidentNode incidentLinks with
              | none => none
              | some lv =>
                  match pickMinLink vf lv, pickMaxLink vf lv with
                  | some ccw0, some cw0 =>
                      match fixDir ccw0.1 incidentNode, fixDir cw0.1 incidentNode with
                      | some ccwise, some cwise =>
                          let fs2 : FilS := { fs with
                            end_c := minsert (minsert fs.end_c
                              (fEnd, incidentNode) (cwise.2, cwise.1))
                              (ccwise.1, ccwise.2) (incidentNode, fEnd),
                            end_cc := minsert (minsert fs.end_cc
                              (fEnd, incidentNode) (ccwise.2, ccwise.1))
                              (cwise.1, cwise.2) (incidentNode, fEnd),
                            start_c := minsert (minsert fs.start_c
                              (incidentNode, fEnd) cwise)
                              (ccwise.2, ccwise.1) (incidentNode, fEnd),
                            start_cc := minsert (minsert fs.start_cc
                              (incidentNode, fEnd) ccwise)
                              (cwise.2, cwise.1) (incidentNode, fEnd) }
                          (propRegions coordsOrg filament regionsSets incRegions
                              (fs2.right, fs2.left)).bind (fun pr =>
                            some { fs2 with right := pr.1, left := pr.2 })
                      | _, _ => none
                  | _, _ => none

def incNodesFold (coordsOrg : NMap) (filament : List Node) (regionsSets : List (List Node))
    (incRegions : List ℕ) (fuel : ℕ) : FilS → List Node → Option FilS
  | fs, [] => some fs
  | fs, n :: rest =>
      (incidentStep coordsOrg filament regionsSets incRegions fuel fs n).bind
        (fun fs2 => incNodesFold coordsOrg filament regionsSets incRegions fuel fs2 rest)

/-- One filament of the `for f, filament in enumerate(filaments)` loop. -/
def filamentStep (coordsOrg : NMap) (regionsSets : List (List Node)) (fuel : ℕ)
    (fs : FilS) (filament : List Node) : Option FilS :=
  match filament_pointers filament fs.node_edge with
  | none => none
  | some fp =>
      let fs1 : FilS := { fs with
        end_cc := mupdate fs.end_cc fp.ecc,
        start_c := mupdate fs.start_c fp.sc,
        start_cc := mupdate fs.start_cc fp.scc,
        end_c := mupdate fs.end_c fp.ec,
        node_edge := fp.node_edge }
      let incNodes := sortAsc (List.dedup
        (filament.filter (fun n => regionsSets.any (fun rg => n ∈ rg))))
      let incRegions := (List.range regionsSets.length).filter
        (fun r => filament.any (fun n => n ∈ regionsSets.getD r []))
      incNodesFold coordsOrg filament regionsSets incRegions fuel fs1 incNodes

def filamentsFold (coordsOrg : NMap) (regionsSets : List (List Node)) (fuel : ℕ) :
    FilS → List (List Node) → Option FilS
  | fs, [] => some fs
  | fs, f :: rest =>
      (filamentStep coordsOrg regionsSets fuel fs f).bind
        (fun fs2 => filamentsFold coordsOrg regionsSets fuel fs2 rest)

/-! #### The whole extraction -/

structure WedS where
  start_c : List (Edge × Edge)
  start_cc : List (Edge × Edge)
  end_c : List (Edge × Edge)
  end_cc : List (Edge × Edge)
  right_polygon : List (Edge × ℕ)
  left_polygon : List (Edge × ℕ)
  region_edge : List (ℕ × Edge)
  node_edge : List (Node × Edge)
  start_node : List (Edge × Node)
  end_node : List (Edge × Node)
  node_coords : NMap
  edge_list : List Edge
  deriving DecidableEq

/-- wed.py `WED.extract_wed`: returns the structure together with the
post-run contents of the caller's coords map and edge list (both are
mutated in place by regions_from_graph). -/
def extract_wed (edges : List Edge) (coords : NMap) (fuel : ℕ) :
    Option (WedS × NMap × List Edge) :=
  let coordsOrg := coords
  (regions_from_graph coords edges fuel).bind (fun mcb =>
    let se := buildStartEnd mcb.extEdges
    let revs := mcb.regions.map List.reverse
    let bs0 : BuildS := ⟨[], [], [], [], [], [], [], []⟩
    let bs1 := revs.enum.foldl (fun b pr => buildRegion b pr.1 pr.2) bs0
    let ext := mcb.regions.length
    let noleft := (mkeys bs1.right).filter (fun k => (mfind bs1.left k).isNone)
    let bs2 := { bs1 with left := noleft.foldl (fun l e => minsert l e ext) bs1.left }
    (stitchOuter coordsOrg fuel noleft []).bind (fun unions =>
      (installUnions bs2.start_cc bs2.end_c unions).bind (fun pr =>
        let regionsSets := revs.map (fun region => sortAsc (List.dedup region))
        let fs0 : FilS := ⟨bs2.start_c, pr.1, pr.2, bs2.end_cc, bs2.right, bs2.left,
          bs2.node_edge⟩
        (filamentsFold coordsOrg regionsSets fuel fs0 mcb.filaments).bind (fun fs =>
          some (⟨fs.start_c, fs.start_cc, fs.end_c, fs.end_cc, fs.right, fs.left,
                 bs2.region_edge, fs.node_edge, se.1, se.2, coordsOrg, edges⟩,
                mcb.finalNodes, mcb.finalEdges)))))

/-- WED.__init__ with both arguments: normalize, then extract.  The third
result component is the caller's edge list after construction: the list
object reaches the (destructive) extractor only through the pass-through
branch of check_edges. -/
def wedBuild (edges : List Edge) (coords : NMap) (fuel : ℕ) :
    Option (WedS × NMap × List Edge) :=
  let checked := check_edges edges
  (extract_wed checked coords fuel).map (fun r =>
    (r.1, r.2.1, if checked = edges then r.2.2 else edges))

/-! ### C2: construction consumes the caller's inputs -/

/-- C2 (counterexample): construction on the already-doubled triangle input
(check_edges passes the caller's list through).  Afterwards the caller's
coords map has lost key 0 (it is empty) and the caller's edge list is
drained; the claim that the inputs survive is false. -/
theorem construction_destroys_inputs :
    mfind triNodes 0 = some ((0 : Q), (0 : Q)) ∧
    (0, 1) ∈ triEdgesDbl ∧
    (wedBuild triEdgesDbl triNodes 100).map (fun r => mfind r.2.1 0) = some none ∧
    (wedBuild triEdgesDbl triNodes 100).map (fun r => r.2.2) = some [] := by
  refine ⟨rfl, by decide, by decide, by decide⟩

/-- C2 (amended): the extractor consumes the caller's maps, but extract_wed
copies the coordinates first: node_coords of the returned structure always
equals the coords map as passed in. -/
theorem node_coords_preserved (edges : List Edge) (coords : NMap) (fuel : ℕ)
    (w : WedS) (cn : NMap) (ce : List Edge)
    (h : extract_wed edges coords fuel = some (w, cn, ce)) :
    w.node_coords = coords := by
  unfold extract_wed at h
  simp only [] at h
  rw [Option.bind_eq_some] at h
  obtain ⟨mcb, _, h2⟩ := h
  rw [Option.bind_eq_some] at h2
  obtain ⟨unions, _, h3⟩ := h2
  rw [Option.bind_eq_some] at h3
  obtain ⟨pr, _, h4⟩ := h3
  rw [Option.bind_eq_some] at h4
  obtain ⟨fs, _, h5⟩ := h4
  injection h5 with h5
  injection h5 with hA hRest
  rw [← hA]

/-- C2 (witness): node_coords preservation at the concrete triangle input. -/
theorem node_coords_preserved_witness :
    ∃ w cn ce, extract_wed triEdgesDbl triNodes 100 = some (w, cn, ce) ∧
      w.node_coords = triNodes := by
  cases hw : extract_wed triEdgesDbl triNodes 100 with
  | none => exact absurd hw (by decide)
  | some r =>
      obtain ⟨w, cn, ce⟩ := r
      exact ⟨w, cn, ce, rfl, node_coords_preserved triEdgesDbl triNodes 100 w cn ce hw⟩

/-! ### C6 and C7 concrete structures -/

def wedDefault : WedS := ⟨[], [], [], [], [], [], [], [], [], [], [], []⟩

def s1Edges : List Edge := [(0, 1), (1, 2), (2, 0)]

/-- The structure built from the S1 triangle input. -/
def wedS1 : WedS := ((wedBuild s1Edges triNodes 100).map Prod.fst).getD wedDefault

def s5Nodes : NMap := [(0, (0, 0)), (1, (1, 0)), (2, (0, 1)), (3, (2, 2))]

def s5Edges : List Edge := [(0, 1), (1, 2), (2, 0), (1, 3)]

/-- The structure built from the S5 input (triangle plus exterior filament). -/
def wedS5 : WedS := ((wedBuild s5Edges s5Nodes 100).map Prod.fst).getD wedDefault

/-- C7 (counterexample): in the S5 structure the filament edge (1,3) has no
right_polygon and no left_polygon entry at all, so it cannot equal the
exterior face id 1 (the only region id is 0 and the exterior sentinel is
ri+1 = 1). -/
theorem s5_filament_face_claim_false :
    (wedBuild s5Edges s5Nodes 100).map Prod.fst = some wedS5 ∧
    mfind wedS5.region_edge 0 = some (1, 0) ∧
    mfind wedS5.right_polygon (1, 3) = none ∧
    mfind wedS5.left_polygon (1, 3) = none ∧
    mfind wedS5.right_polygon (1, 3) ≠ some 1 := by
  refine ⟨rfl, rfl, rfl, rfl, by decide⟩

/-- C7 (amended): the S5 filament edge gets no face assignment in either
direction: the exterior-face pass only relabels edges that already carry a
right_polygon, and face propagation skips the filament because its far end
(2,2) lies outside the only region. -/
theorem s5_filament_no_face :
    (wedBuild s5Edges s5Nodes 100).map Prod.fst = some wedS5 ∧
    mfind wedS5.right_polygon (1, 3) = none ∧
    mfind wedS5.left_polygon (1, 3) = none ∧
    mfind wedS5.right_polygon (3, 1) = none ∧
    mfind wedS5.left_polygon (3, 1) = none := by
  refine ⟨rfl, rfl, rfl, rfl, rfl⟩

/-! ### C6: the exterior-chain candidate selection -/

/-- Modelled from the spec (§4.4): choose, among the candidate half-edges,
the one forming the largest counter-clockwise angle from the vector c → a
at origin c, ties to the first.  CCW angles are θ(v) − θ(v0) normalized
into [0,360). -/
def ccwLt (v0 a b : Coord) : Bool :=
  let ga := angLt a v0
  let gb := angLt b v0
  if ga = gb then angLt a b else gb

def candVecs (pos : NMap) (origin : Coord) : List Edge → Option (List Coord)
  | [] => some []
  | c :: rest =>
      match mfind pos c.2, candVecs pos origin rest with
      | some cc, some t => some ((cc.1 - origin.1, cc.2 - origin.2) :: t)
      | _, _ => none

def specCCWScan (v0 : Coord) : List Coord → ℕ → ℕ → Coord → ℕ
  | [], _, j, _ => j
  | v :: rest, i, j, best =>
      if ccwLt v0 best v then specCCWScan v0 rest (i + 1) i v
      else specCCWScan v0 rest (i + 1) j best

/-- Modelled from the spec: index of the candidate with the largest CCW
angle from the vector current[1] → current[0] measured at current[1]. -/
def specLargestCCW (pos : NMap) (current : Edge) (cands : List Edge) : Option ℕ :=
  match mfind pos current.2, mfind pos current.1 with
  | some origin, some pa =>
      let v0 : Coord := (pa.1 - origin.1, pa.2 - origin.2)
      match candVecs pos origin cands with
      | none => none
      | some [] => none
      | some (v :: rest) => some (specCCWScan v0 rest 1 0 v)
  | _, _ => none

def c6Pos : NMap := [(0, (0, 0)), (1, (1, 0)), (2, (0, 1)), (3, (0, -1))]

/-- C6: with current edge (1,0) — from a = (1,0) to c = b = (0,0) — and the
two candidates (0,2) towards (0,1) (CCW angle 90°) and (0,3) towards (0,-1)
(CCW angle 270°), the source's acos-based scan picks index 0 because both
unsigned angles are 90°, while the largest-CCW-angle rule of its own
comment (and the spec) picks index 1. -/
theorem stitch_unsigned_angle_bug :
    stitchChoose c6Pos (1, 0) [(0, 2), (0, 3)] = some 0 ∧
    specLargestCCW c6Pos (1, 0) [(0, 2), (0, 3)] = some 1 ∧
    stitchChoose c6Pos (1, 0) [(0, 2), (0, 3)] ≠
      specLargestCCW c6Pos (1, 0) [(0, 2), (0, 3)] := by
  refine ⟨rfl, rfl, by decide⟩

/-! ### C5: enum_edges_region -/

/-- The traversal loop of enum_edges_region: `l0` is appended first by the
caller; each step follows end_cc when the region owns the right side of the
current edge, start_cc otherwise, appends, and stops when the new edge
equals l0 as an unordered pair.  A missing right_polygon or pointer entry
raises KeyError, hence none; the loop need not terminate, hence fuel. -/
def enumLoop (w : WedS) (region : ℕ) (l0 : Edge) :
    ℕ → Edge → List Edge → Option (List Edge)
  | 0, _, _ => none
  | fuel + 1, l, acc =>
      match mfind w.right_polygon l with
      | none => none
      | some rp =>
          match (if region = rp then mfind w.end_cc l else mfind w.start_cc l) with
          | none => none
          | some l2 =>
              if setEq l2 l0 then some (acc ++ [l2])
              else enumLoop w region l0 fuel l2 (acc ++ [l2])

/-- wed.py `WED.enum_edges_region` (lines 127-160). -/
def enum_edges_region (w : WedS) (region : ℕ) (fuel : ℕ) : Option (List Edge) :=
  match mfind w.region_edge region with
  | none => none
  | some l0 => enumLoop w region l0 fuel l0 [l0]

/-- Number of half-edges whose right_polygon is f. -/
def rightCount (w : WedS) (f : ℕ) : ℕ :=
  (w.right_polygon.filter (fun p => p.2 == f)).length

/-- C5 (counterexample): on the S1 triangle, face 0 has 3 half-edges with
right_polygon 0, but enum_edges_region returns 4 entries (the starting
edge is repeated at the end), so the claimed length equality fails. -/
theorem enum_edges_region_length_claim_false :
    (wedBuild s1Edges triNodes 100).map Prod.fst = some wedS1 ∧
    enum_edges_region wedS1 0 50 = some [(1, 0), (0, 2), (2, 1), (1, 0)] ∧
    rightCount wedS1 0 = 3 ∧
    ¬ ([(1, 0), (0, 2), (2, 1), (1, 0)] : List Edge).length = rightCount wedS1 0 := by
  refine ⟨rfl, rfl, rfl, by decide⟩

theorem enumLoop_chain (w : WedS) (f : ℕ) (e0 : Edge) (hs : setEq e0 e0 = true) :
    ∀ (suffix : List Edge) (fuel : ℕ) (cur : Edge) (acc : List Edge),
    List.Chain (fun a b => mfind w.right_polygon a = some f ∧ mfind w.end_cc a = some b)
      cur (suffix ++ [e0]) →
    (∀ e ∈ suffix, setEq e e0 = false) →
    suffix.length + 1 ≤ fuel →
    enumLoop w f e0 fuel cur acc = some (acc ++ suffix ++ [e0]) := by
  intro suffix
  induction suffix with
  | nil =>
      intro fuel cur acc hchain _ hfuel
      cases fuel with
      | zero => omega
      | succ n =>
          simp only [List.nil_append] at hchain
          rcases List.chain_cons.mp hchain with ⟨⟨hrp, hcc⟩, _⟩
          unfold enumLoop
          rw [hrp]
          simp only [eq_self_iff_true, if_true]
          rw [hcc]
          simp only []
          rw [if_pos hs]
          simp
  | cons s1 rest ih =>
      intro fuel cur acc hchain hstop hfuel
      cases fuel with
      | zero => simp at hfuel
      | succ n =>
          simp only [List.cons_append] at hchain
          rcases List.chain_cons.mp hchain with ⟨⟨hrp, hcc⟩, hchain2⟩
          have hs1 : setEq s1 e0 = false := hstop s1 (by simp)
          have hs1n : ¬ (setEq s1 e0 = true) := by rw [hs1]; decide
          unfold enumLoop
          rw [hrp]
          simp only [eq_self_iff_true, if_true]
          rw [hcc]
          simp only []
          rw [if_neg hs1n]
          have h2 := ih n s1 (acc ++ [s1]) hchain2
            (fun e he => hstop e (by simp [he])) (by simp at hfuel ⊢; omega)
          rw [h2]
          simp

/-- C5 (amended): for a face f of the structure whose right_polygon-owned
half-edges form the end_cc cycle e0 :: cyc through region_edge[f],
enum_edges_region returns that cycle with the starting edge appended again:
a closed walk of length one more than the number of half-edges with
right_polygon f. -/
theorem enum_edges_region_closed (w : WedS) (f : ℕ) (e0 : Edge) (cyc : List Edge) (fuel : ℕ)
    (hre : mfind w.region_edge f = some e0)
    (hchain : List.Chain (fun a b => mfind w.right_polygon a = some f ∧
      mfind w.end_cc a = some b) e0 (cyc ++ [e0]))
    (hstop : ∀ e ∈ cyc, setEq e e0 = false)
    (hfuel : cyc.length + 1 ≤ fuel)
    (hcount : rightCount w f = cyc.length + 1) :
    enum_edges_region w f fuel = some (e0 :: (cyc ++ [e0])) ∧
    (e0 :: (cyc ++ [e0])).length = rightCount w f + 1 ∧
    (e0 :: (cyc ++ [e0])).head? = some e0 ∧
    (e0 :: (cyc ++ [e0])).getLast? = some e0 := by
  refine ⟨?_, ?_, rfl, ?_⟩
  · unfold enum_edges_region
    rw [hre]
    have h := enumLoop_chain w f e0 (by simp [setEq]) cyc fuel e0 [e0] hchain hstop hfuel
    show enumLoop w f e0 fuel e0 [e0] = some (e0 :: (cyc ++ [e0]))
    rw [h]
    simp
  · simp [hcount]
  · rw [List.getLast?_eq_getLast _ (by simp)]
    simp [List.getLast_append]

/-- C5 (witness): the amended closed-walk theorem at the S1 structure, face
0, with the 3-edge chain (1,0), (0,2), (2,1). -/
theorem enum_edges_region_closed_witness :
    enum_edges_region wedS1 0 50 = some [(1, 0), (0, 2), (2, 1), (1, 0)] ∧
    ([(1, 0), (0, 2), (2, 1), (1, 0)] : List Edge).length = rightCount wedS1 0 + 1 := by
  have hchain : List.Chain (fun a b => mfind wedS1.right_polygon a = some 0 ∧
      mfind wedS1.end_cc a = some b) (1, 0) ([(0, 2), (2, 1)] ++ [(1, 0)]) :=
    List.Chain.cons ⟨by decide, by decide⟩
      (List.Chain.cons ⟨by decide, by decide⟩
        (List.Chain.cons ⟨by decide, by decide⟩ List.Chain.nil))
  have h := enum_edges_region_closed wedS1 0 (1, 0) [(0, 2), (2, 1)] 50
    (by decide) hchain (by decide) (by decide) (by decide)
  exact ⟨h.1, h.2.1⟩

/-! ### C1: right_polygon[e] = left_polygon[twin e] wherever right is set -/

/-- The paired-write invariant: every half-edge with a right_polygon entry
has a left_polygon entry at its twin holding the same face. -/
def RLInv (right left : List (Edge × ℕ)) : Prop :=
  ∀ e r, mfind right e = some r → mfind left (twin e) = some r

theorem twin_inj {a b : Edge} (h : twin a = twin b) : a = b := by
  have h2 := congrArg twin h
  rwa [twin_twin, twin_twin] at h2

theorem RLInv_nil : RLInv [] [] := fun e r h => by cases h

theorem RLInv_pair {right left : List (Edge × ℕ)} (inv : RLInv right left)
    (e : Edge) (v : ℕ) : RLInv (minsert right e v) (minsert left (twin e) v) := by
  intro e2 r h
  by_cases he : e2 = e
  · subst he
    rw [mfind_minsert_self] at h
    rw [mfind_minsert_self]
    exact h
  · rw [mfind_minsert_ne _ _ _ _ he] at h
    rw [mfind_minsert_ne _ _ _ _ (fun hh => he (twin_inj hh))]
    exact inv e2 r h

theorem RLInv_quad {right left : List (Edge × ℕ)} (inv : RLInv right left)
    (p : Edge) (v : ℕ) :
    RLInv (minsert (minsert right p v) (twin p) v)
          (minsert (minsert left p v) (twin p) v) := by
  intro e r h
  by_cases h1 : e = twin p
  · subst h1
    rw [mfind_minsert_self] at h
    show mfind _ p = some r
    by_cases h2 : p = twin p
    · rw [← h2, mfind_minsert_self]
      exact h
    · rw [mfind_minsert_ne _ _ _ _ h2, mfind_minsert_self]
      exact h
  · rw [mfind_minsert_ne _ _ _ _ h1] at h
    by_cases h2 : e = p
    · subst h2
      rw [mfind_minsert_self] at h
      rw [mfind_minsert_self]
      exact h
    · rw [mfind_minsert_ne _ _ _ _ h2] at h
      have h3 : twin e ≠ twin p := fun hh => h2 (twin_inj hh)
      have h4 : twin e ≠ p := fun hh => h1 (by rw [← twin_twin e, hh])
      rw [mfind_minsert_ne _ _ _ _ h3, mfind_minsert_ne _ _ _ _ h4]
      exact inv e r h

theorem buildRegionStep_inv {r : List Node} {ri : ℕ} {bs : BuildS}
    (inv : RLInv bs.right bs.left) (i : ℕ) :
    RLInv (buildRegionStep r ri bs i).right (buildRegionStep r ri bs i).left :=
  RLInv_pair inv (r.getD (i + 1) 0, r.getD (i + 2) 0) ri

theorem buildRegion_fold_inv (r : List Node) (ri : ℕ) :
    ∀ (l : List ℕ) (bs : BuildS), RLInv bs.right bs.left →
    RLInv (l.foldl (buildRegionStep r ri) bs).right
          (l.foldl (buildRegionStep r ri) bs).left := by
  intro l
  induction l with
  | nil => intro bs inv; exact inv
  | cons i rest ih =>
      intro bs inv
      exact ih (buildRegionStep r ri bs i) (buildRegionStep_inv inv i)

theorem buildRegion_inv {bs : BuildS} {ri : ℕ} {region : List Node}
    (inv : RLInv bs.right bs.left) :
    RLInv (buildRegion bs ri region).right (buildRegion bs ri region).left :=
  buildRegion_fold_inv _ ri (List.range (region.length - 1)) bs inv

theorem buildAll_inv :
    ∀ (l : List (ℕ × List Node)) (bs : BuildS), RLInv bs.right bs.left →
    RLInv (l.foldl (fun b pr => buildRegion b pr.1 pr.2) bs).right
          (l.foldl (fun b pr => buildRegion b pr.1 pr.2) bs).left := by
  intro l
  induction l with
  | nil => intro bs inv; exact inv
  | cons p rest ih =>
      intro bs inv
      exact ih (buildRegion bs p.1 p.2) (buildRegion_inv inv)

theorem buildRegionStep_keys {r : List Node} {ri : ℕ} {bs : BuildS}
    (h : (mkeys bs.right).Nodup) (i : ℕ) :
    (mkeys (buildRegionStep r ri bs i).right).Nodup :=
  mkeys_minsert_nodup _ _ _ h

theorem buildRegion_fold_keys (r : List Node) (ri : ℕ) :
    ∀ (l : List ℕ) (bs : BuildS), (mkeys bs.right).Nodup →
    (mkeys (l.foldl (buildRegionStep r ri) bs).right).Nodup := by
  intro l
  induction l with
  | nil => intro bs h; exact h
  | cons i rest ih =>
      intro bs h
      exact ih (buildRegionStep r ri bs i) (buildRegionStep_keys h i)

theorem buildAll_keys :
    ∀ (l : List (ℕ × List Node)) (bs : BuildS), (mkeys bs.right).Nodup →
    (mkeys (l.foldl (fun b pr => buildRegion b pr.1 pr.2) bs).right).Nodup := by
  intro l
  induction l with
  | nil => intro bs h; exact h
  | cons p rest ih =>
      intro bs h
      exact ih (buildRegion bs p.1 p.2)
        (buildRegion_fold_keys _ p.1 (List.range (p.2.length - 1)) bs h)

theorem exterior_fold_inv (ext : ℕ) :
    ∀ (noleft : List Edge) (right left : List (Edge × ℕ)),
    RLInv right left → noleft.Nodup → (∀ e ∈ noleft, mfind left e = none) →
    RLInv right (noleft.foldl (fun l e => minsert l e ext) left) := by
  intro noleft
  induction noleft with
  | nil => intro right left inv _ _; exact inv
  | cons e1 rest ih =>
      intro right left inv hnd hnone
      simp only [List.foldl_cons]
      apply ih
      · intro e2 r h
        by_cases he : twin e2 = e1
        · have h2 := inv e2 r h
          rw [he] at h2
          rw [hnone e1 (by simp)] at h2
          cases h2
        · rw [mfind_minsert_ne _ _ _ _ he]
          exact inv e2 r h
      · exact (List.nodup_cons.mp hnd).2
      · intro e he
        have hne : e ≠ e1 := by
          intro hh
          subst hh
          exact (List.nodup_cons.mp hnd).1 he
        rw [mfind_minsert_ne _ _ _ _ hne]
        exact hnone e (by simp [he])

theorem propagateFilament_fold_inv (v : ℕ) (filament : List Node) :
    ∀ (l : List ℕ) (pr : List (Edge × ℕ) × List (Edge × ℕ)), RLInv pr.1 pr.2 →
    RLInv (l.foldl (fun pr n =>
        (minsert (minsert pr.1 (filament.getD n 0, filament.getD (n + 1) 0) v)
          (filament.getD (n + 1) 0, filament.getD n 0) v,
         minsert (minsert pr.2 (filament.getD n 0, filament.getD (n + 1) 0) v)
          (filament.getD (n + 1) 0, filament.getD n 0) v)) pr).1
      (l.foldl (fun pr n =>
        (minsert (minsert pr.1 (filament.getD n 0, filament.getD (n + 1) 0) v)
          (filament.getD (n + 1) 0, filament.getD n 0) v,
         minsert (minsert pr.2 (filament.getD n 0, filament.getD (n + 1) 0) v)
          (filament.getD (n + 1) 0, filament.getD n 0) v)) pr).2 := by
  intro l
  induction l with
  | nil => intro pr inv; exact inv
  | cons n rest ih =>
      intro pr inv
      simp only [List.foldl_cons]
      exact ih _ (RLInv_quad inv (filament.getD n 0, filament.getD (n + 1) 0) v)

theorem propagateFilament_inv {filament : List Node} {v : ℕ}
    {right left : List (Edge × ℕ)} (inv : RLInv right left) :
    RLInv (propagateFilament filament v right left).1
          (propagateFilament filament v right left).2 :=
  propagateFilament_fold_inv v filament (List.range (filament.length - 1)) (right, left) inv

theorem propRegions_inv (coordsOrg : NMap) (filament : List Node)
    (regionsSets : List (List Node)) :
    ∀ (lst : List ℕ) (pr pr2 : List (Edge × ℕ) × List (Edge × ℕ)),
    propRegions coordsOrg filament regionsSets lst pr = some pr2 →
    RLInv pr.1 pr.2 → RLInv pr2.1 pr2.2 := by
  intro lst
  induction lst with
  | nil =>
      intro pr pr2 h inv
      injection h with h
      subst h
      exact inv
  | cons r rest ih =>
      intro pr pr2 h inv
      unfold propRegions at h
      split at h
      · cases h
      · split at h
        · cases h
        · split at h
          · exact ih _ _ h (propagateFilament_inv inv)
          · exact ih _ _ h inv

theorem incidentStep_inv {coordsOrg : NMap} {filament : List Node}
    {regionsSets : List (List Node)} {incRegions : List ℕ} {fuel : ℕ}
    {n : Node} {fs fs2 : FilS}
    (h : incidentStep coordsOrg filament regionsSets incRegions fuel fs n = some fs2)
    (inv : RLInv fs.right fs.left) : RLInv fs2.right fs2.left := by
  unfold incidentStep at h
  simp only [] at h
  split at h
  · cases h
  · split at h
    · cases h
    · split at h
      · cases h
      · split at h
        · cases h
        · split at h
          · split at h
            · rw [Option.bind_eq_some] at h
              obtain ⟨pr, hpr, h2⟩ := h
              injection h2 with h2
              subst h2
              exact propRegions_inv coordsOrg filament regionsSets incRegions _ _ hpr inv
            · cases h
          · cases h

theorem incNodesFold_inv (coordsOrg : NMap) (filament : List Node)
    (regionsSets : List (List Node)) (incRegions : List ℕ) (fuel : ℕ) :
    ∀ (nodes : List Node) (fs fs2 : FilS),
    incNodesFold coordsOrg filament regionsSets incRegions fuel fs nodes = some fs2 →
    RLInv fs.right fs.left → RLInv fs2.right fs2.left := by
  intro nodes
  induction nodes with
  | nil =>
      intro fs fs2 h inv
      injection h with h
      subst h
      exact inv
  | cons n rest ih =>
      intro fs fs2 h inv
      unfold incNodesFold at h
      rw [Option.bind_eq_some] at h
      obtain ⟨fsm, hstep, h2⟩ := h
      exact ih _ _ h2 (incidentStep_inv hstep inv)

theorem filamentStep_inv {coordsOrg : NMap} {regionsSets : List (List Node)} {fuel : ℕ}
    {fs fs2 : FilS} {f : List Node}
    (h : filamentStep coordsOrg regionsSets fuel fs f = some fs2)
    (inv : RLInv fs.right fs.left) : RLInv fs2.right fs2.left := by
  unfold filamentStep at h
  split at h
  · cases h
  · exact incNodesFold_inv coordsOrg f regionsSets _ fuel _ _ _ h inv

theorem filamentsFold_inv (coordsOrg : NMap) (regionsSets : List (List Node)) (fuel : ℕ) :
    ∀ (fls : List (List Node)) (fs fs2 : FilS),
    filamentsFold coordsOrg regionsSets fuel fs fls = some fs2 →
    RLInv fs.right fs.left → RLInv fs2.right fs2.left := by
  intro fls
  induction fls with
  | nil =>
      intro fs fs2 h inv
      injection h with h
      subst h
      exact inv
  | cons f rest ih =>
      intro fs fs2 h inv
      unfold filamentsFold at h
      rw [Option.bind_eq_some] at h
      obtain ⟨fsm, hstep, h2⟩ := h
      exact ih _ _ h2 (filamentStep_inv hstep inv)

/-- C1 (amended): for every half-edge e that carries a right_polygon entry
in the completed structure, the twin carries a left_polygon entry with the
same face id. -/
theorem right_left_twin (edges : List Edge) (coords : NMap) (fuel : ℕ)
    (w : WedS) (cn : NMap) (ce : List Edge)
    (h : extract_wed edges coords fuel = some (w, cn, ce))
    (e : Edge) (r : ℕ) (hr : mfind w.right_polygon e = some r) :
    mfind w.left_polygon (twin e) = some r := by
  unfold extract_wed at h
  simp only [] at h
  rw [Option.bind_eq_some] at h
  obtain ⟨mcb, hmcb, h2⟩ := h
  rw [Option.bind_eq_some] at h2
  obtain ⟨unions, hun, h3⟩ := h2
  rw [Option.bind_eq_some] at h3
  obtain ⟨pr, hins, h4⟩ := h3
  rw [Option.bind_eq_some] at h4
  obtain ⟨fs, hff, h5⟩ := h4
  injection h5 with h5
  injection h5 with hA hRest
  have hinv1 : RLInv
      ((List.map List.reverse mcb.regions).enum.foldl
        (fun b pr => buildRegion b pr.1 pr.2) ⟨[], [], [], [], [], [], [], []⟩).right
      ((List.map List.reverse mcb.regions).enum.foldl
        (fun b pr => buildRegion b pr.1 pr.2) ⟨[], [], [], [], [], [], [], []⟩).left :=
    buildAll_inv _ _ RLInv_nil
  have hkeys : (mkeys ((List.map List.reverse mcb.regions).enum.foldl
      (fun b pr => buildRegion b pr.1 pr.2) ⟨[], [], [], [], [], [], [], []⟩).right).Nodup :=
    buildAll_keys _ _ (by simp [mkeys])
  have hinv2 : RLInv
      ((List.map List.reverse mcb.regions).enum.foldl
        (fun b pr => buildRegion b pr.1 pr.2) ⟨[], [], [], [], [], [], [], []⟩).right
      (((mkeys ((List.map List.reverse mcb.regions).enum.foldl
          (fun b pr => buildRegion b pr.1 pr.2) ⟨[], [], [], [], [], [], [], []⟩).right).filter
        (fun k => (mfind ((List.map List.reverse mcb.regions).enum.foldl
          (fun b pr => buildRegion b pr.1 pr.2) ⟨[], [], [], [], [], [], [], []⟩).left k).isNone)).foldl
        (fun l e => minsert l e mcb.regions.length)
        ((List.map List.reverse mcb.regions).enum.foldl
          (fun b pr => buildRegion b pr.1 pr.2) ⟨[], [], [], [], [], [], [], []⟩).left) := by
    apply exterior_fold_inv
    · exact hinv1
    · exact List.Nodup.filter _ hkeys
    · intro e2 he2
      have h6 := List.of_mem_filter he2
      exact Option.isNone_iff_eq_none.mp (by simpa using h6)
  have hfs : RLInv fs.right fs.left := filamentsFold_inv _ _ _ _ _ _ hff hinv2
  have hr2 : mfind fs.right e = some r := by
    rw [← hA] at hr
    exact hr
  have hgoal := hfs e r hr2
  rw [← hA]
  exact hgoal

/-- C1 (counterexample): in the S1 structure the half-edge (2,0) is present
(it is in the edge list, has a start_node entry, and carries rotational
pointers) but has no right_polygon entry at all, while left_polygon of its
twin (0,2) is the exterior id 1 — so right_polygon[e] = left_polygon[twin e]
fails when quantified over all present half-edges. -/
theorem right_left_twin_claim_false :
    (wedBuild s1Edges triNodes 100).map Prod.fst = some wedS1 ∧
    (2, 0) ∈ wedS1.edge_list ∧
    mfind wedS1.start_node (2, 0) = some 2 ∧
    mfind wedS1.right_polygon (2, 0) = none ∧
    mfind wedS1.left_polygon (0, 2) = some 1 := by
  refine ⟨rfl, by decide, rfl, rfl, rfl⟩

/-- C1 (witness): the amended twin-consistency theorem at the S1 input and
half-edge (0,2), whose right face 0 reappears as the left face of (2,0). -/
theorem right_left_twin_witness :
    extract_wed triEdgesDbl triNodes 100 = some (wedS1, [], []) ∧
    mfind wedS1.right_polygon (0, 2) = some 0 ∧
    mfind wedS1.left_polygon (2, 0) = some 0 :=
  ⟨rfl, rfl, right_left_twin triEdgesDbl triNodes 100 wedS1 [] [] rfl (0, 2) 0 rfl⟩
